import Mathlib

/-! # Search, ranking and highlighting engine of `src/App.jsx`

A shallow embedding of the catalogue browser's pure core (`normalize`,
`scoreMatch`, `escapeRegExp`, `Highlight`, the `computed` pipeline) and of the
recent-queries state (`saveRecent`, `onClearRecent`, the start-up load),
followed by theorems about them.

Strings are sequences of UTF-16 code units, as in the source language.
The tables the source takes from its host (Unicode lower-casing, the
pattern matcher's case canonicalisation, the `'ru'` collation) are the fields
of `Host`; `asciiHost` is one concrete host used for evaluation.
-/

namespace TenderSearch

/-! ## Strings -/

/-- A string: its UTF-16 code units. -/
abbrev Str := List Nat

/-- UTF-16 code units of one code point. -/
def unitsOf (c : Char) : Str :=
  if c.toNat < 65536 then [c.toNat]
  else [55296 + (c.toNat - 65536) / 1024, 56320 + (c.toNat - 65536) % 1024]

/-- UTF-16 code units of a string literal. -/
def str (s : String) : Str := s.toList.flatMap unitsOf

/-- White space and line terminators: what `trim` strips and what `\s` matches. -/
def isWhite (c : Nat) : Bool :=
  c == 9 || c == 10 || c == 11 || c == 12 || c == 13 || c == 32 || c == 160 ||
  c == 5760 || (8192 ≤ c && c ≤ 8202) || c == 8232 || c == 8233 || c == 8239 ||
  c == 8287 || c == 12288 || c == 65279

/-- Model of `String.prototype.trim`. -/
def trim (s : Str) : Str :=
  ((s.dropWhile isWhite).reverse.dropWhile isWhite).reverse

/-- Tables supplied by the host engine. -/
structure Host where
  /-- Model of `String.prototype.toLowerCase`. -/
  toLowerCase : Str → Str
  /-- Case canonicalisation of one code unit under the pattern flag `i`. -/
  canonicalize : Nat → Nat
  /-- Model of `a.localeCompare(b, 'ru')`. -/
  localeCompare : Str → Str → Int

/-- Lower-casing of one code unit: Basic Latin and the Russian alphabet. -/
def lowerUnit (c : Nat) : Nat :=
  if 65 ≤ c ∧ c ≤ 90 then c + 32
  else if 1040 ≤ c ∧ c ≤ 1071 then c + 32
  else if c = 1025 then 1105
  else c

/-- Upper-casing of one code unit: Basic Latin and the Russian alphabet. -/
def upperUnit (c : Nat) : Nat :=
  if 97 ≤ c ∧ c ≤ 122 then c - 32
  else if 1072 ≤ c ∧ c ≤ 1103 then c - 32
  else if c = 1105 then 1025
  else c

/-- Three-way comparison of strings by code units. -/
def compareUnits : Str → Str → Int
  | [], [] => 0
  | [], _ :: _ => -1
  | _ :: _, [] => 1
  | a :: as, b :: bs => if a < b then -1 else if b < a then 1 else compareUnits as bs

/-- A concrete host: Basic Latin and Russian case tables, code-unit collation. -/
def asciiHost : Host where
  toLowerCase := fun s => s.map lowerUnit
  canonicalize := upperUnit
  localeCompare := compareUnits

/-! ## `normalize` and `scoreMatch` -/

/-- Source: `normalize = (s) => (s || '').toString().toLowerCase().trim()`;
`none` is an absent (null or undefined) argument. -/
def normalize (H : Host) (s : Option Str) : Str :=
  trim (H.toLowerCase (s.getD []))

/-- Model of `Boolean(s)` on a string: the empty string alone is falsy. -/
def truthy : Str → Bool
  | [] => false
  | _ :: _ => true

/-- Scanner behind `splitWs`: `gap` tells that the previous unit was white
space, `cur` holds the units of the current piece, last first. -/
def splitWsAux : Bool → Str → Str → List Str
  | _, [], cur => [cur.reverse]
  | gap, c :: cs, cur =>
    if isWhite c then
      if gap then splitWsAux true cs [] else cur.reverse :: splitWsAux true cs []
    else splitWsAux false cs (c :: cur)

/-- Model of `s.split(/\s+/)`: the pieces between maximal runs of white space. -/
def splitWs (s : Str) : List Str := splitWsAux false s []

/-- Search of `p` in `s`, whose first unit has index `k` in the whole string. -/
def indexOfAux (p : Str) : Str → Nat → Option Nat
  | [], k => if p = [] then some k else none
  | c :: cs, k => if p.isPrefixOf (c :: cs) then some k else indexOfAux p cs (k + 1)

/-- Model of `t.indexOf(p, pos)`; `none` stands for `-1`. -/
def indexOf (t p : Str) (pos : Nat) : Option Nat :=
  indexOfAux p (t.drop pos) (min pos t.length)

/-- The loop `while (idx !== -1) { score += 1; idx = t.indexOf(p, idx + p.length) }`
of `scoreMatch`; `none` when the fuel runs out before the loop ends. -/
def countLoop (t p : Str) : Nat → Option Nat → Nat → Option Nat
  | 0, _, _ => none
  | _ + 1, none, score => some score
  | fuel + 1, some idx, score =>
    countLoop t p fuel (indexOf t p (idx + p.length)) (score + 1)

/-- Source: `scoreMatch(q, text)`, lines 6-20. The fuel of the inner loop is
the length of the normalized text plus two. -/
def scoreMatch (H : Host) (q : Str) (text : Option Str) : Option Nat :=
  if q = [] then some 0
  else
    let t := normalize H text
    let parts := (splitWs (normalize H (some q))).filter truthy
    parts.foldlM
      (fun score p =>
        if p = [] then some score
        else countLoop t p (t.length + 2) (indexOf t p 0) score)
      0

/-! ### Specification-side counting -/

/-- The terms of a query in the spec's words: the query normalized, split on
runs of white space, empty tokens dropped. -/
def queryTerms (H : Host) (q : Str) : List Str :=
  ((normalize H (some q)).splitOnP isWhite).filter truthy

/-- Non-overlapping occurrences of `p` found by a left-to-right scan of the
text; `skip` counts the units still covered by the occurrence found last, at
which no new occurrence may start. -/
def scanCount (p : Str) : Nat → Str → Nat
  | _, [] => 0
  | 0, c :: cs =>
    if p.isPrefixOf (c :: cs) then 1 + scanCount p (p.length - 1) cs
    else scanCount p 0 cs
  | skip + 1, _ :: cs => scanCount p skip cs

/-- Number of non-overlapping occurrences of `p` in `t`. -/
def occurrences (p t : Str) : Nat := scanCount p 0 t


/-! ## `escapeRegExp` and `Highlight` -/

/-- Model of `Array.prototype.join` on strings. -/
def joinWith (sep : Str) : List Str → Str
  | [] => []
  | [x] => x
  | x :: y :: rest => x ++ sep ++ joinWith sep (y :: rest)

/-- The units of the character class in `escapeRegExp`, in source order:
`. * + ? ^ $ { } ( ) | [ ] \`. -/
def escapeClass : List Nat := [46, 42, 43, 63, 94, 36, 123, 125, 40, 41, 124, 91, 93, 92]

/-- Source: `escapeRegExp = (s) => s.replace(/[.*+?^${}()|[\]\\]/g, '\\$&')`:
every unit of the class is preceded by a backslash. -/
def escapeRegExp (s : Str) : Str :=
  s.flatMap (fun c => if c ∈ escapeClass then [92, c] else [c])

/-- The syntax characters of the pattern grammar, in the order of the language
standard: `^ $ \ . * + ? ( ) [ ] { } |`. -/
def syntaxCharacters : List Nat := [94, 36, 92, 46, 42, 43, 63, 40, 41, 91, 93, 123, 125, 124]

/-- Lexical items of a pattern. -/
inductive Tok where
  /-- A pattern character, or an escaped syntax character: matches itself. -/
  | lit (c : Nat)
  /-- An unescaped syntax character. -/
  | op (c : Nat)
  /-- A backslash followed by a unit that is not a syntax character. -/
  | cls (c : Nat)
deriving DecidableEq, Repr

/-- Lexer of pattern sources; `none` for a backslash at the end. -/
def lexPattern : Str → Option (List Tok)
  | [] => some []
  | [c] => if c = 92 then none else some [if c ∈ syntaxCharacters then Tok.op c else Tok.lit c]
  | c :: d :: ds =>
    if c = 92 then
      (lexPattern ds).map
        (fun ts => (if d ∈ syntaxCharacters then Tok.lit d else Tok.cls d) :: ts)
    else
      (lexPattern (d :: ds)).map
        (fun ts => (if c ∈ syntaxCharacters then Tok.op c else Tok.lit c) :: ts)

/-- Alternatives of a disjunction of literals, read up to the closing
parenthesis that must end the pattern; `cur` is the current alternative, last
unit first. -/
def altsOf : List Tok → Str → Option (List Str)
  | [], _ => none
  | Tok.lit c :: ts, cur => altsOf ts (c :: cur)
  | Tok.cls _ :: _, _ => none
  | Tok.op c :: ts, cur =>
    if c = 124 then (altsOf ts []).map (fun as => cur.reverse :: as)
    else if c = 41 then (if ts = [] then some [cur.reverse] else none)
    else none

/-- Model of `new RegExp(pattern, 'ig')` on the patterns that are one capture
group around a disjunction of literal alternatives: the alternatives, in order.
`none` for any other pattern. -/
def newRegExp (pattern : Str) : Option (List Str) :=
  match lexPattern pattern with
  | some (Tok.op 40 :: ts) => altsOf ts []
  | _ => none

/-- Whether the literal `p` matches at the start of `s`, units compared after
canonicalisation (flag `i`). -/
def matchLit (H : Host) : Str → Str → Bool
  | [], _ => true
  | _ :: _, [] => false
  | a :: p, c :: s => H.canonicalize a == H.canonicalize c && matchLit H p s

/-- Length of the match of the disjunction at the start of `s`: the first
alternative that matches wins. -/
def matchHere (H : Host) (alts : List Str) (s : Str) : Option Nat :=
  (alts.find? (fun p => matchLit H p s)).map List.length

/-- Leftmost match in `s`, whose first unit has index `i`: start and end index. -/
def execFrom (H : Host) (alts : List Str) : Str → Nat → Option (Nat × Nat)
  | [], i => (matchHere H alts []).map (fun n => (i, i + n))
  | c :: cs, i =>
    match matchHere H alts (c :: cs) with
    | some n => some (i, i + n)
    | none => execFrom H alts cs (i + 1)

/-- Model of `re.test(s)` for a pattern with flag `g`: the result and the new
value of `re.lastIndex`. -/
def reTest (H : Host) (alts : List Str) (lastIndex : Nat) (s : Str) : Bool × Nat :=
  if s.length < lastIndex then (false, 0)
  else
    match execFrom H alts (s.drop lastIndex) lastIndex with
    | some (_, e) => (true, e)
    | none => (false, 0)

/-- Model of `S.substring(p, q)` for `p ≤ q`. -/
def slice (S : Str) (p q : Nat) : Str := (S.drop p).take (q - p)

/-- The loop of the split of `S` by a pattern with one capture group: `p` is the
end of the last match, `q` the position tried next, `acc` the pieces so far. -/
def splitLoop (H : Host) (alts : List Str) (S : Str) :
    Nat → Nat → Nat → List Str → Option (List Str)
  | 0, _, _, _ => none
  | fuel + 1, p, q, acc =>
    if q < S.length then
      match matchHere H alts (S.drop q) with
      | none => splitLoop H alts S fuel p (q + 1) acc
      | some n =>
        let e := min (q + n) S.length
        if e = p then splitLoop H alts S fuel p (q + 1) acc
        else splitLoop H alts S fuel e e (acc ++ [slice S p q, slice S q e])
    else some (acc ++ [slice S p S.length])

/-- Model of `S.split(re)` for a pattern with one capture group. -/
def reSplit (H : Host) (alts : List Str) (S : Str) : Option (List Str) :=
  if S = [] then
    match matchHere H alts [] with
    | some _ => some []
    | none => some [S]
  else splitLoop H alts S (2 * S.length + 2) 0 0 []

/-- The body of `segs.map(...)` in `Highlight`: each piece is tested, then
`re.lastIndex` is set back to 0. -/
def tagSegs (H : Host) (alts : List Str) : Nat → List Str → List (Str × Bool)
  | _, [] => []
  | lastIndex, seg :: rest => (seg, (reTest H alts lastIndex seg).1) :: tagSegs H alts 0 rest

/-- Source: `Highlight({ query, text })`, lines 24-41. The result lists the
rendered pieces with the flag `isHit` (`true`: rendered inside `mark`). -/
def Highlight (H : Host) (query : Str) (text : Option Str) : Option (List (Str × Bool)) :=
  let q := normalize H (some query)
  let raw := text.getD []
  if q = [] then some [(raw, false)]
  else
    let parts := ((splitWs q).filter truthy).map escapeRegExp
    if parts.length = 0 then some [(raw, false)]
    else
      match newRegExp ([40] ++ joinWith [124] parts ++ [41]) with
      | none => none
      | some re => (reSplit H re raw).map (tagSegs H re 0)

/-! ## The search pipeline `computed` -/

/-- A catalogue record of `data.js`; `none` is an absent field. An absent title
is `null` or `undefined`, which `titleIsNull` tells. -/
structure Item where
  id : Nat
  title : Option Str
  text : Option Str
  category : Str
  tags : Option (List Str)
  titleIsNull : Bool := true
deriving DecidableEq, Repr

/-- A row of `computed`: `{ ...x, _score: s, _ok: ok }`. -/
structure Row where
  item : Item
  score : Nat
  ok : Bool
deriving DecidableEq, Repr

/-- Ways in which the evaluation of `computed` stops without a list. -/
inductive Failure where
  /-- A `TypeError`: a method called on an absent value. -/
  | typeError
  /-- The fuel of a loop of the model ran out. -/
  | outOfFuel
deriving DecidableEq, Repr

/-- Outcome of an evaluation that may throw. -/
inductive Outcome (α : Type) where
  | ok (a : α)
  | threw (f : Failure)
deriving DecidableEq, Repr

/-- Sequencing of evaluations that may throw. -/
def Outcome.andThen {α β : Type} (x : Outcome α) (f : α → Outcome β) : Outcome β :=
  match x with
  | Outcome.ok a => f a
  | Outcome.threw e => Outcome.threw e

/-- The category value that selects every record: `'Все'`. -/
def allCategory : Str := str "Все"

/-- Sort mode `'А-Я'`. -/
def sortAsc : Str := str "А-Я"

/-- Sort mode `'Я-А'`. -/
def sortDesc : Str := str "Я-А"

/-- Sort mode `'Релевантность'`. -/
def sortRelevance : Str := str "Релевантность"

/-- Source, line 68: `[x.title, x.text, (x.tags || []).join(' ')].join(' ')`;
`join` writes an absent element as the empty string. -/
def hayOf (x : Item) : Str :=
  joinWith [32] [x.title.getD [], x.text.getD [], joinWith [32] (x.tags.getD [])]

/-- Model of `t.includes(p)`. -/
def includes (t p : Str) : Bool := (indexOf t p 0).isSome

/-- Source, line 70: `!q || s > 0 || normalize(hay).includes(q)`. -/
def okFlag (H : Host) (q : Str) (s : Nat) (hay : Str) : Bool :=
  !truthy q || decide (s > 0) || includes (normalize H (some hay)) q

/-- Source, lines 67-72: the callback of `selected.map`. -/
def rowOf (H : Host) (q : Str) (x : Item) : Outcome Row :=
  let hay := hayOf x
  match scoreMatch H q (some hay) with
  | none => Outcome.threw Failure.outOfFuel
  | some s => Outcome.ok { item := x, score := s, ok := okFlag H q s hay }

/-- Model of `selected.map(callback)` for a callback that may throw. -/
def mapRows (f : Item → Outcome Row) : List Item → Outcome (List Row)
  | [] => Outcome.ok []
  | x :: xs => (f x).andThen (fun r => (mapRows f xs).andThen (fun rs => Outcome.ok (r :: rs)))

/-- The string a title is compared as when it is the argument of
`localeCompare`: an absent argument is converted to `"null"` or `"undefined"`. -/
def titleKey (r : Row) : Str :=
  match r.item.title with
  | some t => t
  | none => if r.item.titleIsNull then str "null" else str "undefined"

/-- Source, line 75: `a.title.localeCompare(b.title, 'ru')`; a `TypeError` when
the receiver `a.title` is absent. -/
def compareAsc (H : Host) (a b : Row) : Outcome Int :=
  match a.item.title with
  | none => Outcome.threw Failure.typeError
  | some ta => Outcome.ok (H.localeCompare ta (titleKey b))

/-- Source, line 76: `b.title.localeCompare(a.title, 'ru')`. -/
def compareDesc (H : Host) (a b : Row) : Outcome Int :=
  match b.item.title with
  | none => Outcome.threw Failure.typeError
  | some tb => Outcome.ok (H.localeCompare tb (titleKey a))

/-- Source, line 77: `(b._score - a._score) || a.title.localeCompare(b.title, 'ru')`. -/
def compareRelevance (H : Host) (a b : Row) : Outcome Int :=
  let d : Int := (b.score : Int) - (a.score : Int)
  if d ≠ 0 then Outcome.ok d else compareAsc H a b

/-- Insertion of the row `pivot` into the rows sorted so far, given last row
first: `pivot` moves in front of the rows it compares below. The comparator is
handed `pivot`, the later row, first and a row before it second. -/
def insertRow (cmp : Row → Row → Outcome Int) (pivot : Row) : List Row → Outcome (List Row)
  | [] => Outcome.ok [pivot]
  | y :: ys =>
    (cmp pivot y).andThen (fun c =>
      if c < 0 then (insertRow cmp pivot ys).andThen (fun rest => Outcome.ok (y :: rest))
      else Outcome.ok (pivot :: y :: ys))

/-- The rows in turn, each inserted into the rows sorted so far (`done`, last
row first). -/
def sortLoop (cmp : Row → Row → Outcome Int) : List Row → List Row → Outcome (List Row)
  | done, [] => Outcome.ok done.reverse
  | done, x :: xs => (insertRow cmp x done).andThen (fun done1 => sortLoop cmp done1 xs)

/-- Model of `rows.sort(cmp)`: a stable sort by insertion of each row in turn
into the rows before it, the comparator being handed (later row, earlier row)
as by the insertion sort engines use on short arrays. Which pairs an engine
compares is its own choice; every engine compares at least once when there are
two rows or more, and a comparator that throws ends the sort. -/
def sortRows (cmp : Row → Row → Outcome Int) (l : List Row) : Outcome (List Row) :=
  sortLoop cmp [] l

/-- Source: `computed`, lines 62-80, over the record set `items`. -/
def computed (H : Host) (items : List Item) (query category sort : Str) : Outcome (List Row) :=
  let q := normalize H (some query)
  let selected := if category = allCategory then items
    else items.filter (fun x => x.category = category)
  (mapRows (rowOf H q) selected).andThen (fun mapped =>
    let rows := mapped.filter (fun x => x.ok)
    (if sort = sortAsc then sortRows (compareAsc H) rows else Outcome.ok rows).andThen
      (fun rows1 =>
        (if sort = sortDesc then sortRows (compareDesc H) rows1 else Outcome.ok rows1).andThen
          (fun rows2 =>
            if sort = sortRelevance then sortRows (compareRelevance H) rows2
            else Outcome.ok rows2)))

/-- The value of `scoreMatch`, 0 standing for a run that ends without one. -/
def scoreVal (H : Host) (q : Str) (text : Option Str) : Nat :=
  (scoreMatch H q text).getD 0

/-- The row that the callback of `selected.map` builds for `x`. -/
def pureRow (H : Host) (q : Str) (x : Item) : Row :=
  { item := x, score := scoreVal H q (some (hayOf x)),
    ok := okFlag H q (scoreVal H q (some (hayOf x))) (hayOf x) }

/-- The records selected by the category filter. -/
def selectedItems (items : List Item) (category : Str) : List Item :=
  if category = allCategory then items else items.filter (fun x => x.category = category)

/-- The rows of `computed` after `.filter((x) => x._ok)`, before sorting. -/
def passedRows (H : Host) (items : List Item) (query category : Str) : List Row :=
  ((selectedItems items category).map (pureRow H (normalize H (some query)))).filter
    (fun x => x.ok)

/-- Title order between two rows: the title of the first collates before the
title of the second or equal to it; an absent title stands as the string it is
compared as (`titleKey`). -/
def TitleLe (H : Host) (x y : Row) : Prop :=
  H.localeCompare (titleKey x) (titleKey y) ≤ 0

/-- Relevance order between two rows: a greater score first, equal scores in
title order. -/
def RelevanceOrdered (H : Host) (x y : Row) : Prop :=
  y.score < x.score ∨ (x.score = y.score ∧ TitleLe H x y)

/-- The collation is the three-way comparison of a total preorder: `a` is at or
after `b` exactly when `b` is at or before `a`, and being at or before is
transitive. -/
def CollationPreorder (H : Host) : Prop :=
  (∀ a b, 0 ≤ H.localeCompare a b ↔ H.localeCompare b a ≤ 0) ∧
  (∀ a b c, H.localeCompare a b ≤ 0 → H.localeCompare b c ≤ 0 → H.localeCompare a c ≤ 0)

/-- Of any two rows with equal scores both have a title: no comparison of the
relevance mode reads an absent title. -/
def TiesTitled (l : List Row) : Prop :=
  l.Pairwise (fun y x => x.score = y.score → x.item.title ≠ none ∧ y.item.title ≠ none)

/-- The rows `rows.sort(cmp)` returns when `cmp` has the values `c` and never
throws. -/
def pureSort (c : Row → Row → Int) (l : List Row) : List Row :=
  (l.foldl (fun done x => done.orderedInsert (fun a b => 0 ≤ c a b) x) []).reverse

/-- Value of the comparator of mode `'А-Я'` when it returns. -/
def ascVal (H : Host) (a b : Row) : Int := H.localeCompare (titleKey a) (titleKey b)

/-- Value of the comparator of mode `'Я-А'` when it returns. -/
def descVal (H : Host) (a b : Row) : Int := H.localeCompare (titleKey b) (titleKey a)

/-- Value of the comparator of mode `'Релевантность'` when it returns. -/
def relVal (H : Host) (a b : Row) : Int :=
  if (b.score : Int) - (a.score : Int) ≠ 0 then (b.score : Int) - (a.score : Int)
  else H.localeCompare (titleKey a) (titleKey b)

/-- The record set of the spec's example scenario. -/
def exampleItems : List Item :=
  [ { id := 1, title := some (str "Audit Checklist"), text := some (str "Annual audit process"),
      category := str "Finance", tags := some [str "audit", str "annual"] },
    { id := 2, title := some (str "Tender Guide"), text := some (str "How to prepare a tender"),
      category := str "Procurement", tags := some [str "tender"] } ]

/-- Two records without a title. -/
def untitledItems : List Item :=
  [ { id := 1, title := none, text := some (str "Annual audit process"),
      category := str "Finance", tags := none },
    { id := 2, title := none, text := some (str "How to prepare a tender"),
      category := str "Procurement", tags := none } ]

/-- The example record set and a record without a title. -/
def mixedItems : List Item :=
  exampleItems ++
    [ { id := 3, title := none, text := some (str "Audit of tenders"),
        category := str "Finance", tags := none } ]

/-- The list `computed` returns when every selected record has a title. -/
def sortedRows (H : Host) (items : List Item) (query category sort : Str) : List Row :=
  if sort = sortAsc then pureSort (ascVal H) (passedRows H items query category)
  else if sort = sortDesc then pureSort (descVal H) (passedRows H items query category)
  else if sort = sortRelevance then pureSort (relVal H) (passedRows H items query category)
  else passedRows H items query category

/-- Lower-casing keeps white space white: a string made of white space only
is mapped to such a string. -/
def KeepsWhite (H : Host) : Prop :=
  ∀ s : Str, (∀ c ∈ s, isWhite c = true) → ∀ c ∈ H.toLowerCase s, isWhite c = true

/-- Normalization is idempotent on the host: `normalize(normalize(s))` is
`normalize(s)`. -/
def NormalizeIdempotent (H : Host) : Prop :=
  ∀ s : Str, normalize H (some (normalize H (some s))) = normalize H (some s)

/-! ## The recent-queries list -/

/-- An entry of a stored array: a string, or a JSON value that is not a string,
told apart by a code. -/
inductive Entry where
  | text (s : Str)
  | other (code : Nat)
deriving DecidableEq, Repr

/-- What the storage holds under the key `recent_searches_v1`. -/
inductive Stored where
  /-- No entry: `getItem` returns `null`. -/
  | absent
  /-- The JSON text of an array. -/
  | array (l : List Entry)
  /-- Any other text: not JSON, or JSON that is not an array. -/
  | other
deriving DecidableEq, Repr

/-- The stored entry and the component state `recent`. -/
structure RecentState where
  storage : Stored
  recent : List Entry
deriving DecidableEq, Repr

/-- Source, lines 50-58: the initial value of `recent`, read from the storage:
a stored array is cut to 8 entries and taken as it is. -/
def loadRecent : Stored → List Entry
  | Stored.array l => l.take 8
  | Stored.absent => []
  | Stored.other => []

/-- Source, lines 96-104: `saveRecent(value)`; `writeOk` tells whether
`localStorage.setItem` succeeds (a failure is caught and ignored). An entry
that is not a string is never `===` to the string `v`. -/
def saveRecent (s : RecentState) (value : Str) (writeOk : Bool) : RecentState :=
  let v := trim value
  if v = [] then s
  else
    let next := (Entry.text v :: s.recent.filter (fun x => decide (x ≠ Entry.text v))).take 8
    { storage := if writeOk then Stored.array next else s.storage, recent := next }

/-- Source, lines 116-121: `onClearRecent()`; `removeOk` tells whether
`localStorage.removeItem` succeeds. -/
def onClearRecent (s : RecentState) (removeOk : Bool) : RecentState :=
  { storage := if removeOk then Stored.absent else s.storage, recent := [] }

/-- What happens to the component. -/
inductive Event where
  /-- The component starts again: `recent` is read from the storage. -/
  | mount
  /-- The form is submitted with `value` as query. -/
  | save (value : Str) (writeOk : Bool)
  /-- The list is cleared. -/
  | clear (removeOk : Bool)
deriving DecidableEq, Repr

/-- One step of the component. -/
def stepRecent (s : RecentState) : Event → RecentState
  | Event.mount => { s with recent := loadRecent s.storage }
  | Event.save value writeOk => saveRecent s value writeOk
  | Event.clear removeOk => onClearRecent s removeOk

/-- The state at start-up, for the entry `st` found in the storage. -/
def initRecent (st : Stored) : RecentState := { storage := st, recent := loadRecent st }

/-- The state after start-up on the stored entry `st` and a sequence of events. -/
def runRecent (st : Stored) (evs : List Event) : RecentState :=
  evs.foldl stepRecent (initRecent st)

/-- An entry that is a string, not empty and trimmed. -/
def GoodEntry (e : Entry) : Prop :=
  ∃ s, e = Entry.text s ∧ s ≠ [] ∧ trim s = s

/-- Entries pairwise distinct, each a non-empty trimmed string. -/
def EntriesGood (l : List Entry) : Prop :=
  l.Nodup ∧ ∀ e ∈ l, GoodEntry e

/-- The invariant of the recent-queries list: at most 8 entries, pairwise
distinct, each a non-empty trimmed string. -/
def RecentInv (l : List Entry) : Prop :=
  l.length ≤ 8 ∧ EntriesGood l

/-- The stored array, if there is one, has entries that are pairwise distinct
non-empty trimmed strings. -/
def StoredInv : Stored → Prop
  | Stored.array l => EntriesGood l
  | Stored.absent => True
  | Stored.other => True

/-- Tokens of the disjunction of the literal alternatives `parts`, closing
parenthesis included. -/
def toksOf : List Str → List Tok
  | [] => [Tok.op 41]
  | [t] => t.map Tok.lit ++ [Tok.op 41]
  | t :: u :: rest => t.map Tok.lit ++ Tok.op 124 :: toksOf (u :: rest)

/-- Whether the term `t` occurs in `seg`, units compared after canonicalisation. -/
def Occurs (H : Host) (t seg : Str) : Prop :=
  t.map H.canonicalize <:+: seg.map H.canonicalize

/-- Whether `seg` equals the term `t`, units compared after canonicalisation. -/
def CanonEq (H : Host) (seg t : Str) : Prop :=
  seg.map H.canonicalize = t.map H.canonicalize

/-- A piece of a split: free of occurrences of the alternatives, or equal to
one of them up to canonicalisation. -/
def GoodSeg (H : Host) (alts : List Str) (seg : Str) : Prop :=
  (∀ t ∈ alts, ¬ Occurs H t seg) ∨ (∃ t ∈ alts, CanonEq H seg t)

/-- Lower-casing of one code unit, the Kelvin sign included: U+212A lower-cases
to `k`. -/
def lowerUnitK (c : Nat) : Nat := if c = 8490 then 107 else lowerUnit c

/-- A host whose tables hold the Kelvin sign (U+212A) as the standards have it:
it lower-cases to `k`; it is its own upper case, so that the canonicalisation
of flag `i` (without flag `u`) keeps it apart from `k` and `K`. -/
def kelvinHost : Host where
  toLowerCase := fun s => s.map lowerUnitK
  canonicalize := upperUnit
  localeCompare := compareUnits

/-- The tagging of `Highlight` read with lower-casing: each piece tagged as
matched is, lower-cased, one of the query's terms, and no piece tagged as
unmatched contains, lower-cased, a term. -/
def LowerTagged (H : Host) (query : Str) (text : Option Str) : Prop :=
  ∃ segs, Highlight H query text = some segs ∧
    (∀ seg, (seg, true) ∈ segs → ∃ t ∈ queryTerms H query, H.toLowerCase seg = t) ∧
    (∀ seg, (seg, false) ∈ segs → ∀ t ∈ queryTerms H query, ¬ t <:+: H.toLowerCase seg)

/-- On the units of the alphabet `A` the two case tables agree: lower-casing
works unit by unit through `lo`, stays in `A` and is idempotent, and two units
have the same canonical form exactly when they have the same lower case. -/
def CaseAgree (H : Host) (A : Nat → Prop) (lo : Nat → Nat) : Prop :=
  (∀ s : Str, (∀ c ∈ s, A c) → H.toLowerCase s = s.map lo) ∧
  (∀ a, A a → A (lo a) ∧ lo (lo a) = lo a) ∧
  (∀ a b, A a → A b → (H.canonicalize a = H.canonicalize b ↔ lo a = lo b))

/-! # Theorems -/

/-! ## Lemmas on counting -/

theorem scanCount_skip (p : Str) (s : Str) (k : Nat) :
    scanCount p k s = scanCount p 0 (s.drop k) := by
  induction s generalizing k with
  | nil => simp [scanCount]
  | cons c cs ih =>
    cases k with
    | zero => simp
    | succ k => simp only [scanCount, List.drop_succ_cons]; exact ih k

theorem isPrefixOf_length {p s : Str} (h : p.isPrefixOf s = true) : p.length ≤ s.length := by
  rw [List.isPrefixOf_iff_prefix] at h
  exact h.length_le

theorem indexOfAux_none {p : Str} (s : Str) (k : Nat)
    (h : indexOfAux p s k = none) : scanCount p 0 s = 0 := by
  induction s generalizing k with
  | nil => simp [scanCount]
  | cons c cs ih =>
    simp only [indexOfAux] at h
    split at h
    · simp at h
    · rename_i hpre
      simp only [scanCount, hpre]
      exact ih (k + 1) h

theorem indexOfAux_some {p : Str} (hp : p ≠ []) (s : Str) (k i : Nat)
    (h : indexOfAux p s k = some i) :
    ∃ j, i = k + j ∧ j + p.length ≤ s.length ∧
      scanCount p 0 s = 1 + scanCount p 0 (s.drop (j + p.length)) := by
  induction s generalizing k with
  | nil => simp [indexOfAux, hp] at h
  | cons c cs ih =>
    simp only [indexOfAux] at h
    split at h
    · rename_i hpre
      refine ⟨0, by simpa using h.symm, by simpa using isPrefixOf_length hpre, ?_⟩
      simp only [scanCount, hpre, if_true, Nat.zero_add]
      rw [scanCount_skip]
      have hl : 0 < p.length := List.length_pos.mpr hp
      obtain ⟨n, hn⟩ : ∃ n, p.length = n + 1 := ⟨p.length - 1, by omega⟩
      simp [hn]
    · rename_i hpre
      obtain ⟨j, hj, hlen, hcount⟩ := ih (k + 1) h
      refine ⟨j + 1, by omega, by simp; omega, ?_⟩
      simp only [scanCount, hpre]
      rw [hcount]
      have : j + 1 + p.length = (j + p.length) + 1 := by omega
      rw [this, List.drop_succ_cons]
      simp

theorem countLoop_spec {p : Str} (hp : p ≠ []) (t : Str) (fuel : Nat) :
    ∀ k score, k ≤ t.length → t.length - k < fuel →
      countLoop t p fuel (indexOfAux p (t.drop k) k) score
        = some (score + scanCount p 0 (t.drop k)) := by
  induction fuel with
  | zero => intro k score _ h; omega
  | succ fuel ih =>
    intro k score hk hfuel
    cases hidx : indexOfAux p (t.drop k) k with
    | none =>
      simp [countLoop, indexOfAux_none _ _ hidx]
    | some i =>
      obtain ⟨j, hj, hlen, hcount⟩ := indexOfAux_some hp _ _ _ hidx
      simp only [List.length_drop] at hlen
      have hle : i + p.length ≤ t.length := by omega
      have hpos : 0 < p.length := List.length_pos.mpr hp
      simp only [countLoop, indexOf, Nat.min_eq_left hle]
      rw [ih (i + p.length) (score + 1) hle (by omega), hcount, List.drop_drop]
      have : k + (j + p.length) = i + p.length := by omega
      rw [this]
      congr 1
      omega

theorem countLoop_indexOf {p : Str} (hp : p ≠ []) (t : Str) (score : Nat) :
    countLoop t p (t.length + 2) (indexOf t p 0) score = some (score + occurrences p t) := by
  have h := countLoop_spec hp t (t.length + 2) 0 score (Nat.zero_le _) (by omega)
  simpa [indexOf, occurrences] using h

theorem scoreFold_spec (t : Str) (parts : List Str) (score : Nat) :
    parts.foldlM
      (fun score p =>
        if p = [] then some score
        else countLoop t p (t.length + 2) (indexOf t p 0) score)
      score
      = some (score + (parts.map (fun p => if p = [] then 0 else occurrences p t)).sum) := by
  induction parts generalizing score with
  | nil => simp
  | cons p ps ih =>
    simp only [List.foldlM_cons, List.map_cons, List.sum_cons]
    by_cases hp : p = []
    · simp only [hp, if_true, Option.bind_eq_bind, Option.some_bind]
      rw [ih]; simp
    · simp only [hp, if_false, countLoop_indexOf hp, Option.bind_eq_bind, Option.some_bind]
      rw [ih]; congr 1; omega

/-! ## Lemmas on splitting at white space -/

theorem splitWsAux_filter (s : Str) : ∀ (gap : Bool) (cur : Str), (gap = true → cur = []) →
    (splitWsAux gap s cur).filter truthy
      = ((s.splitOnP isWhite).modifyHead (fun x => cur.reverse ++ x)).filter truthy := by
  induction s with
  | nil => intro gap cur _; simp [splitWsAux]
  | cons c cs ih =>
    intro gap cur hgap
    rw [List.splitOnP_cons]
    by_cases hc : isWhite c = true
    · have ih1 := ih true [] (fun _ => rfl)
      have hid : (fun x : Str => ([] : Str).reverse ++ x) = id := by funext x; simp
      rw [hid] at ih1
      have hmh : ∀ l : List Str, l.modifyHead id = l := by
        intro l; cases l <;> simp
      rw [hmh] at ih1
      cases gap with
      | true =>
        have hcur := hgap rfl
        subst hcur
        simp [splitWsAux, hc, ih1, truthy]
      | false =>
        simp only [splitWsAux, hc, if_true, Bool.false_eq_true, if_false, List.modifyHead_cons,
          List.append_nil, List.filter_cons, ih1]
    · have ih1 := ih false (c :: cur) (by simp)
      simp only [splitWsAux, hc, if_false, Bool.false_eq_true]
      rw [ih1]
      cases hsp : List.splitOnP isWhite cs with
      | nil => simp
      | cons x xs => simp

theorem splitWs_filter (s : Str) :
    (splitWs s).filter truthy = (s.splitOnP isWhite).filter truthy := by
  have h := splitWsAux_filter s false [] (by simp)
  have hid : (fun x : Str => ([] : Str).reverse ++ x) = id := by funext x; simp
  rw [hid] at h
  have hmh : ∀ l : List Str, l.modifyHead id = l := by
    intro l; cases l <;> simp
  rw [hmh] at h
  exact h

theorem truthy_iff (p : Str) : truthy p = true ↔ p ≠ [] := by
  cases p <;> simp [truthy]

theorem trim_nil : trim [] = [] := by simp [trim]

theorem scoreMatch_of_ne (H : Host) (q : Str) (t : Option Str) (hq : q ≠ []) :
    scoreMatch H q t
      = some ((queryTerms H q).map (fun p => occurrences p (normalize H t))).sum := by
  unfold scoreMatch queryTerms
  simp only [hq, if_false]
  rw [scoreFold_spec, splitWs_filter]
  simp only [Nat.zero_add]
  congr 2
  apply List.map_congr_left
  intro p hp
  have : p ≠ [] := (truthy_iff p).mp (List.mem_filter.mp hp).2
  simp [this]

/-! ## C1: the score is the sum of the non-overlapping occurrence counts -/

/-- C1: for every query `q` and text `t`, `scoreMatch(q, t)` returns the sum, over
the terms of `q` in order and with repetitions, of the number of non-overlapping
occurrences of the term in `normalize(t)`; "audit audit" scores 4 against
"audit report audit summary", and "aa" scores 2 against "aaaa". The host's
lower-casing is any function that maps the empty string to itself. -/
theorem scoreMatch_eq_sum_occurrences (H : Host) (hnil : H.toLowerCase [] = []) :
    (∀ (q : Str) (t : Option Str),
      scoreMatch H q t
        = some ((queryTerms H q).map (fun p => occurrences p (normalize H t))).sum) ∧
    scoreMatch asciiHost (str "audit audit") (some (str "audit report audit summary")) = some 4 ∧
    scoreMatch asciiHost (str "aa") (some (str "aaaa")) = some 2 ∧
    occurrences (str "aa") (str "aaaa") = 2 := by
  refine ⟨?_, by decide, by decide, by decide⟩
  intro q t
  by_cases hq : q = []
  · subst hq
    simp [scoreMatch, queryTerms, normalize, hnil, trim_nil, truthy]
  · exact scoreMatch_of_ne H q t hq

theorem scoreMatch_eq_sum_occurrences_witness :
    asciiHost.toLowerCase [] = [] ∧
    scoreMatch asciiHost (str "Tender  tender") (some (str "a TENDER guide"))
      = some ((queryTerms asciiHost (str "Tender  tender")).map
          (fun p => occurrences p (normalize asciiHost (some (str "a TENDER guide"))))).sum :=
  ⟨rfl, (scoreMatch_eq_sum_occurrences asciiHost rfl).1 _ _⟩

/-! ## Lemmas on the pattern built by `Highlight` -/

theorem mem_escapeClass_iff (c : Nat) : c ∈ escapeClass ↔ c ∈ syntaxCharacters := by
  simp only [escapeClass, syntaxCharacters, List.mem_cons, List.mem_singleton, List.not_mem_nil,
    or_false]
  omega

theorem lexPattern_cons_of_ne (c : Nat) (cs : Str) (h : c ≠ 92) :
    lexPattern (c :: cs)
      = (lexPattern cs).map
          (fun ts => (if c ∈ syntaxCharacters then Tok.op c else Tok.lit c) :: ts) := by
  cases cs <;> simp [lexPattern, h]

theorem lexPattern_escape (t rest : Str) :
    lexPattern (escapeRegExp t ++ rest)
      = (lexPattern rest).map (fun ts => t.map Tok.lit ++ ts) := by
  induction t with
  | nil => simp [escapeRegExp]
  | cons c t ih =>
    have hcons : escapeRegExp (c :: t) ++ rest
        = (if c ∈ escapeClass then [92, c] else [c]) ++ (escapeRegExp t ++ rest) := by
      simp [escapeRegExp]
    rw [hcons]
    by_cases hc : c ∈ escapeClass
    · have hs : c ∈ syntaxCharacters := (mem_escapeClass_iff c).mp hc
      simp only [hc, if_true, List.cons_append, List.nil_append, lexPattern, hs, ih,
        Option.map_map, List.map_cons]
      rfl
    · have hs : c ∉ syntaxCharacters := fun h => hc ((mem_escapeClass_iff c).mpr h)
      have h92 : c ≠ 92 := by
        intro h; apply hc; rw [h]; decide
      simp only [hc, if_false, List.cons_append, List.nil_append]
      rw [lexPattern_cons_of_ne c _ h92, ih]
      simp only [hs, if_false, Option.map_map, List.map_cons]
      rfl

theorem lexPattern_parts (parts : List Str) :
    lexPattern (joinWith [124] (parts.map escapeRegExp) ++ [41]) = some (toksOf parts) := by
  induction parts with
  | nil => decide
  | cons t rest ih =>
    cases rest with
    | nil =>
      simp only [List.map_cons, List.map_nil, joinWith, toksOf]
      rw [lexPattern_escape]
      have h41 : lexPattern [41] = some [Tok.op 41] := by decide
      rw [h41]
      rfl
    | cons u rest =>
      simp only [List.map_cons, joinWith, toksOf, List.append_assoc] at ih ⊢
      rw [lexPattern_escape]
      have h124 : ∀ xs : Str, lexPattern ([124] ++ xs)
          = (lexPattern xs).map (fun ts => Tok.op 124 :: ts) := by
        intro xs
        rw [List.singleton_append, lexPattern_cons_of_ne 124 xs (by decide)]
        simp [syntaxCharacters]
      rw [h124, ih]
      simp

theorem altsOf_lits (t : Str) (ts : List Tok) (cur : Str) :
    altsOf (t.map Tok.lit ++ ts) cur = altsOf ts (t.reverse ++ cur) := by
  induction t generalizing cur with
  | nil => simp
  | cons c t ih => simp [altsOf, ih]

theorem altsOf_toksOf (parts : List Str) (hne : parts ≠ []) :
    altsOf (toksOf parts) [] = some parts := by
  induction parts with
  | nil => exact absurd rfl hne
  | cons t rest ih =>
    cases rest with
    | nil => simp [toksOf, altsOf_lits, altsOf]
    | cons u rest =>
      have ih1 := ih (by simp)
      simp only [toksOf] at ih1 ⊢
      rw [altsOf_lits]
      simp [altsOf, ih1]

theorem newRegExp_escaped (parts : List Str) (hne : parts ≠ []) :
    newRegExp ([40] ++ joinWith [124] (parts.map escapeRegExp) ++ [41]) = some parts := by
  have hlex : lexPattern ([40] ++ joinWith [124] (parts.map escapeRegExp) ++ [41])
      = some (Tok.op 40 :: toksOf parts) := by
    have h := lexPattern_parts parts
    simp only [List.append_assoc, List.singleton_append, List.cons_append, List.nil_append] at h ⊢
    rw [lexPattern_cons_of_ne 40 _ (by decide), h]
    simp [syntaxCharacters]
  simp only [newRegExp, hlex]
  exact altsOf_toksOf parts hne

/-! ## Lemmas on matching -/

theorem matchLit_iff (H : Host) (p s : Str) :
    matchLit H p s = true ↔ p.map H.canonicalize <+: s.map H.canonicalize := by
  induction p generalizing s with
  | nil => simp [matchLit]
  | cons a p ih =>
    cases s with
    | nil => simp [matchLit]
    | cons c s =>
      simp only [matchLit, Bool.and_eq_true, beq_iff_eq, List.map_cons, ih]
      rw [List.cons_prefix_cons]

theorem matchHere_none_iff (H : Host) (alts : List Str) (s : Str) :
    matchHere H alts s = none ↔ ∀ t ∈ alts, matchLit H t s = false := by
  simp [matchHere, List.find?_eq_none]

theorem matchHere_some (H : Host) (alts : List Str) (s : Str) (n : Nat)
    (h : matchHere H alts s = some n) :
    ∃ t ∈ alts, n = t.length ∧ matchLit H t s = true := by
  simp only [matchHere, Option.map_eq_some'] at h
  obtain ⟨t, ht, hn⟩ := h
  exact ⟨t, List.mem_of_find?_eq_some ht, hn.symm, by simpa using List.find?_some ht⟩

theorem execFrom_none (H : Host) (alts : List Str) (s : Str) (i : Nat)
    (h : execFrom H alts s i = none) : ∀ t ∈ alts, ¬ Occurs H t s := by
  induction s generalizing i with
  | nil =>
    intro t ht hocc
    simp only [execFrom, Option.map_eq_none'] at h
    have hm := (matchHere_none_iff H alts []).mp h t ht
    have hpre : t.map H.canonicalize <+: ([] : Str).map H.canonicalize := by
      simp only [Occurs, List.map_nil, List.infix_nil] at hocc
      simp [hocc]
    rw [← matchLit_iff] at hpre
    rw [hpre] at hm
    exact Bool.noConfusion hm
  | cons c cs ih =>
    intro t ht hocc
    simp only [execFrom] at h
    split at h
    · exact Option.noConfusion h
    · rename_i hnone
      have hm := (matchHere_none_iff H alts (c :: cs)).mp hnone t ht
      simp only [Occurs, List.map_cons] at hocc
      rcases List.infix_cons_iff.mp hocc with hpre | hin
      · have := (matchLit_iff H t (c :: cs)).mpr (by simpa using hpre)
        rw [this] at hm
        exact Bool.noConfusion hm
      · exact ih (i + 1) h t ht hin

theorem execFrom_some (H : Host) (alts : List Str) (s : Str) (i : Nat) (r : Nat × Nat)
    (h : execFrom H alts s i = some r) : ∃ t ∈ alts, Occurs H t s := by
  induction s generalizing i with
  | nil =>
    simp only [execFrom, Option.map_eq_some'] at h
    obtain ⟨n, hn, _⟩ := h
    obtain ⟨t, ht, _, hm⟩ := matchHere_some H alts [] n hn
    exact ⟨t, ht, ((matchLit_iff H t []).mp hm).isInfix⟩
  | cons c cs ih =>
    simp only [execFrom] at h
    split at h
    · rename_i n hn
      obtain ⟨t, ht, _, hm⟩ := matchHere_some H alts (c :: cs) n hn
      exact ⟨t, ht, ((matchLit_iff H t (c :: cs)).mp hm).isInfix⟩
    · obtain ⟨t, ht, hocc⟩ := ih (i + 1) h
      refine ⟨t, ht, ?_⟩
      simp only [Occurs, List.map_cons] at hocc ⊢
      exact List.infix_cons_iff.mpr (Or.inr hocc)

theorem reTest_zero_true (H : Host) (alts : List Str) (s : Str)
    (h : (reTest H alts 0 s).1 = true) : ∃ t ∈ alts, Occurs H t s := by
  simp only [reTest, Nat.not_lt_zero, if_false, List.drop_zero] at h
  cases hex : execFrom H alts s 0 with
  | none => rw [hex] at h; exact Bool.noConfusion h
  | some r => exact execFrom_some H alts s 0 r hex

theorem reTest_zero_false (H : Host) (alts : List Str) (s : Str)
    (h : (reTest H alts 0 s).1 = false) : ∀ t ∈ alts, ¬ Occurs H t s := by
  simp only [reTest, Nat.not_lt_zero, if_false, List.drop_zero] at h
  cases hex : execFrom H alts s 0 with
  | none => exact execFrom_none H alts s 0 hex
  | some r => rw [hex] at h; exact Bool.noConfusion h

theorem tagSegs_fst (H : Host) (alts : List Str) (segs : List Str) (li : Nat) :
    (tagSegs H alts li segs).map Prod.fst = segs := by
  induction segs generalizing li with
  | nil => rfl
  | cons seg rest ih => simp [tagSegs, ih]

theorem mem_tagSegs (H : Host) (alts : List Str) (segs : List Str) (seg : Str) (b : Bool)
    (h : (seg, b) ∈ tagSegs H alts 0 segs) :
    seg ∈ segs ∧ b = (reTest H alts 0 seg).1 := by
  induction segs with
  | nil => simp [tagSegs] at h
  | cons x rest ih =>
    simp only [tagSegs, List.mem_cons, Prod.mk.injEq] at h
    rcases h with ⟨h1, h2⟩ | h
    · subst h1
      exact ⟨List.mem_cons_self _ _, h2⟩
    · exact ⟨List.mem_cons_of_mem _ (ih h).1, (ih h).2⟩

/-! ## Lemmas on splitting by the pattern -/

theorem take_append_slice (S : Str) (p q : Nat) (hpq : p ≤ q) :
    S.take p ++ slice S p q = S.take q := by
  have h := List.take_add S p (q - p)
  have hq : p + (q - p) = q := by omega
  rw [hq] at h
  exact h.symm

theorem slice_to_length (S : Str) (p : Nat) : slice S p S.length = S.drop p := by
  unfold slice
  apply List.take_of_length_le
  simp

theorem slice_noOcc (H : Host) (alts : List Str) (S : Str) (p q : Nat)
    (hne : ∀ t ∈ alts, t ≠ []) (hpq : p ≤ q) (hq : q ≤ S.length)
    (hpos : ∀ i, p ≤ i → i < q → matchHere H alts (S.drop i) = none) :
    ∀ t ∈ alts, ¬ Occurs H t (slice S p q) := by
  intro t ht hocc
  obtain ⟨a, b, hab⟩ := hocc
  have hlen : a.length + t.length + b.length = q - p := by
    have h := congrArg List.length hab
    simp only [List.length_append, List.length_map, slice, List.length_take,
      List.length_drop] at h
    omega
  have htpos : 0 < t.length := List.length_pos.mpr (hne t ht)
  have hsplit : (S.drop p).map H.canonicalize
      = a ++ (t.map H.canonicalize ++ (b ++ (S.drop q).map H.canonicalize)) := by
    have h1 : S.drop p = slice S p q ++ S.drop q := by
      have h2 := List.take_append_drop (q - p) (S.drop p)
      rw [List.drop_drop] at h2
      have h3 : p + (q - p) = q := by omega
      rw [h3] at h2
      exact h2.symm
    rw [h1, List.map_append, ← hab]
    simp
  have hdrop : (S.drop (p + a.length)).map H.canonicalize
      = t.map H.canonicalize ++ (b ++ (S.drop q).map H.canonicalize) := by
    rw [← List.drop_drop, List.map_drop, hsplit, List.drop_left]
  have hmatch : matchLit H t (S.drop (p + a.length)) = true := by
    rw [matchLit_iff, hdrop]
    exact List.prefix_append _ _
  have hnone := hpos (p + a.length) (by omega) (by omega)
  have := (matchHere_none_iff H alts _).mp hnone t ht
  rw [hmatch] at this
  exact Bool.noConfusion this

theorem splitLoop_spec (H : Host) (alts : List Str) (S : Str)
    (hne : ∀ t ∈ alts, t ≠ []) (fuel : Nat) :
    ∀ p q acc, p ≤ q → q ≤ S.length → S.length - q < fuel → acc.flatten = S.take p →
      (∀ seg ∈ acc, GoodSeg H alts seg) →
      (∀ i, p ≤ i → i < q → matchHere H alts (S.drop i) = none) →
      ∃ segs, splitLoop H alts S fuel p q acc = some segs ∧ segs.flatten = S ∧
        ∀ seg ∈ segs, GoodSeg H alts seg := by
  induction fuel with
  | zero => intro p q acc _ _ h; omega
  | succ fuel ih =>
    intro p q acc hpq hq hfuel hjoin hgood hpos
    by_cases hlt : q < S.length
    · cases hm : matchHere H alts (S.drop q) with
      | none =>
        have hrec := ih p (q + 1) acc (by omega) (by omega) (by omega) hjoin hgood
          (by
            intro i hi1 hi2
            by_cases h : i = q
            · subst h; exact hm
            · exact hpos i hi1 (by omega))
        simpa [splitLoop, hlt, hm] using hrec
      | some n =>
        obtain ⟨t, ht, hn, hmatch⟩ := matchHere_some H alts _ n hm
        have htpos : 0 < t.length := List.length_pos.mpr (hne t ht)
        have hpre := (matchLit_iff H t (S.drop q)).mp hmatch
        have hle : t.length ≤ S.length - q := by
          have := hpre.length_le
          simpa using this
        have he : min (q + n) S.length = q + n := by omega
        have hcanon : CanonEq H (slice S q (q + n)) t := by
          unfold CanonEq slice
          have h1 := List.prefix_iff_eq_take.mp hpre
          rw [List.length_map, ← List.map_take] at h1
          have h2 : q + n - q = t.length := by omega
          rw [h2]
          exact h1.symm
        have hrec := ih (q + n) (q + n) (acc ++ [slice S p q, slice S q (q + n)])
          (Nat.le_refl _) (by omega) (by omega)
          (by
            rw [List.flatten_append, hjoin]
            simp only [List.flatten_cons, List.flatten_nil, List.append_nil]
            rw [← List.append_assoc, take_append_slice S p q hpq,
              take_append_slice S q (q + n) (by omega)])
          (by
            intro seg hseg
            rcases List.mem_append.mp hseg with h | h
            · exact hgood seg h
            · simp only [List.mem_cons, List.mem_singleton, List.not_mem_nil, or_false] at h
              rcases h with h | h
              · subst h
                exact Or.inl (slice_noOcc H alts S p q hne hpq hq hpos)
              · subst h
                exact Or.inr ⟨t, ht, hcanon⟩)
          (by intro i h1 h2; omega)
        have hep : ¬ (q + n = p) := by omega
        simpa [splitLoop, hlt, hm, he, hep] using hrec
    · have hq' : q = S.length := by omega
      subst hq'
      refine ⟨acc ++ [slice S p S.length], by simp [splitLoop], ?_, ?_⟩
      · rw [List.flatten_append, hjoin, slice_to_length]
        simp
      · intro seg hseg
        rcases List.mem_append.mp hseg with h | h
        · exact hgood seg h
        · simp only [List.mem_singleton] at h
          subst h
          exact Or.inl (slice_noOcc H alts S p S.length hne hpq (Nat.le_refl _) hpos)

theorem reSplit_spec (H : Host) (alts : List Str) (S : Str) (hne : ∀ t ∈ alts, t ≠ []) :
    ∃ segs, reSplit H alts S = some segs ∧ segs.flatten = S ∧
      ∀ seg ∈ segs, GoodSeg H alts seg := by
  by_cases hS : S = []
  · subst hS
    have hnone : matchHere H alts [] = none := by
      rw [matchHere_none_iff]
      intro t ht
      cases t with
      | nil => exact absurd rfl (hne [] ht)
      | cons a t => rfl
    refine ⟨[[]], by simp [reSplit, hnone], by simp, ?_⟩
    intro seg hseg
    simp only [List.mem_singleton] at hseg
    subst hseg
    left
    intro t ht hocc
    simp only [Occurs, List.map_nil, List.infix_nil, List.map_eq_nil_iff] at hocc
    exact hne t ht hocc
  · have h := splitLoop_spec H alts S hne (2 * S.length + 2) 0 0 [] (Nat.le_refl _)
      (Nat.zero_le _) (by omega) (by simp) (by simp) (by intro i h1 h2; omega)
    simpa [reSplit, hS] using h

/-! ## C2 and C3: `Highlight` -/

theorem queryTerms_ne_nil (H : Host) (q : Str) : ∀ t ∈ queryTerms H q, t ≠ [] := by
  intro t ht
  exact (truthy_iff t).mp (List.mem_filter.mp ht).2

theorem Highlight_eq (H : Host) (query : Str) (text : Option Str) :
    Highlight H query text
      = if queryTerms H query = [] then some [(text.getD [], false)]
        else (reSplit H (queryTerms H query) (text.getD [])).map
          (tagSegs H (queryTerms H query) 0) := by
  unfold Highlight
  simp only [splitWs_filter]
  have hterms : (List.splitOnP isWhite (normalize H (some query))).filter truthy
      = queryTerms H query := rfl
  rw [hterms]
  by_cases hq : normalize H (some query) = []
  · have hnil : queryTerms H query = [] := by
      unfold queryTerms
      rw [hq]
      simp [truthy]
    simp [hq, hnil]
  · by_cases hnil : queryTerms H query = []
    · simp [hq, hnil]
    · simp only [hq, if_false, List.length_map, List.length_eq_zero, hnil,
        newRegExp_escaped _ hnil]

/-- C2: for every query and every text, `Highlight` returns pieces whose
concatenation in order is the text, unit for unit; with no query term the
result is the single piece holding the text, otherwise the pieces are those of
the split of the original text by the pattern of the terms. -/
theorem highlight_lossless (H : Host) (query : Str) (text : Option Str) :
    ∃ segs, Highlight H query text = some segs ∧
      (segs.map Prod.fst).flatten = text.getD [] ∧
      (queryTerms H query = [] → segs = [(text.getD [], false)]) ∧
      (queryTerms H query ≠ [] →
        reSplit H (queryTerms H query) (text.getD []) = some (segs.map Prod.fst)) := by
  rw [Highlight_eq]
  by_cases hnil : queryTerms H query = []
  · exact ⟨[(text.getD [], false)], by simp [hnil], by simp, fun _ => rfl,
      fun h => absurd hnil h⟩
  · obtain ⟨segs, hsplit, hflat, _⟩ :=
      reSplit_spec H (queryTerms H query) (text.getD []) (queryTerms_ne_nil H query)
    refine ⟨tagSegs H (queryTerms H query) 0 segs, by simp [hnil, hsplit], ?_,
      fun h => absurd h hnil, fun _ => ?_⟩
    · rw [tagSegs_fst]; exact hflat
    · rw [tagSegs_fst]; exact hsplit

theorem highlight_lossless_witness :
    ∃ segs, Highlight asciiHost (str "tender") (some (str "Tender Guide")) = some segs ∧
      (segs.map Prod.fst).flatten = str "Tender Guide" :=
  (highlight_lossless asciiHost (str "tender") (some (str "Tender Guide"))).imp
    (fun _ h => ⟨h.1, h.2.1⟩)

theorem lowerUnit_idem (c : Nat) : lowerUnit (lowerUnit c) = lowerUnit c := by
  unfold lowerUnit
  split_ifs <;> omega

theorem Highlight_pieces (H : Host) (query : Str) (text : Option Str)
    (hterms : queryTerms H query ≠ []) :
    ∃ segs, Highlight H query text = some segs ∧
      (segs.map Prod.fst).flatten = text.getD [] ∧
      (∀ seg, (seg, true) ∈ segs → ∃ t ∈ queryTerms H query, CanonEq H seg t) ∧
      (∀ seg, (seg, false) ∈ segs → ∀ t ∈ queryTerms H query, ¬ Occurs H t seg) := by
  rw [Highlight_eq]
  obtain ⟨segs, hsplit, hflat, hgood⟩ :=
    reSplit_spec H (queryTerms H query) (text.getD []) (queryTerms_ne_nil H query)
  refine ⟨tagSegs H (queryTerms H query) 0 segs, by simp [hterms, hsplit], ?_, ?_, ?_⟩
  · rw [tagSegs_fst]; exact hflat
  · intro seg hseg
    obtain ⟨hmem, htag⟩ := mem_tagSegs H _ segs seg true hseg
    obtain ⟨t, ht, hocc⟩ := reTest_zero_true H _ seg htag.symm
    rcases hgood seg hmem with hno | hex
    · exact absurd hocc (hno t ht)
    · exact hex
  · intro seg hseg
    obtain ⟨_, htag⟩ := mem_tagSegs H _ segs seg false hseg
    exact reTest_zero_false H _ seg htag.symm

theorem map_eq_map_of_agree {f g : Nat → Nat} {A : Nat → Prop}
    (hfg : ∀ x y, A x → A y → f x = f y → g x = g y) :
    ∀ (a b : Str), (∀ x ∈ a, A x) → (∀ y ∈ b, A y) → a.map f = b.map f → a.map g = b.map g := by
  intro a
  induction a with
  | nil =>
    intro b _ _ h
    cases b with
    | nil => rfl
    | cons y b => simp at h
  | cons x a ih =>
    intro b ha hb h
    cases b with
    | nil => simp at h
    | cons y b =>
      simp only [List.map_cons, List.cons.injEq] at h ⊢
      exact ⟨hfg x y (ha x (List.mem_cons_self _ _)) (hb y (List.mem_cons_self _ _)) h.1,
        ih b (fun z hz => ha z (List.mem_cons_of_mem _ hz))
          (fun z hz => hb z (List.mem_cons_of_mem _ hz)) h.2⟩

theorem mem_of_mem_splitOnP (P : Nat → Bool) (l : Str) :
    ∀ t ∈ l.splitOnP P, ∀ u ∈ t, u ∈ l := by
  induction l with
  | nil =>
    intro t ht u hu
    simp only [List.splitOnP_nil, List.mem_singleton] at ht
    subst ht
    exact hu
  | cons x xs ih =>
    intro t ht u hu
    rw [List.splitOnP_cons] at ht
    by_cases hx : P x = true
    · simp only [hx, if_true, List.mem_cons] at ht
      rcases ht with ht | ht
      · subst ht
        exact absurd hu (List.not_mem_nil u)
      · exact List.mem_cons_of_mem _ (ih t ht u hu)
    · simp only [hx, if_false, Bool.false_eq_true] at ht
      cases hsp : List.splitOnP P xs with
      | nil => rw [hsp] at ht; simp at ht
      | cons h tl =>
        rw [hsp] at ht ih
        simp only [List.modifyHead_cons, List.mem_cons] at ht
        rcases ht with ht | ht
        · subst ht
          rcases List.mem_cons.mp hu with hu | hu
          · rw [hu]; exact List.mem_cons_self _ _
          · exact List.mem_cons_of_mem _ (ih h (List.mem_cons_self _ _) u hu)
        · exact List.mem_cons_of_mem _ (ih t (List.mem_cons_of_mem _ ht) u hu)

theorem queryTerms_units (H : Host) (A : Nat → Prop) (lo : Nat → Nat)
    (hagree : CaseAgree H A lo) (query : Str) (hq : ∀ c ∈ query, A c) :
    ∀ t ∈ queryTerms H query, ∀ u ∈ t, A u ∧ lo u = u := by
  intro t ht u hu
  have hmem : u ∈ normalize H (some query) :=
    mem_of_mem_splitOnP isWhite _ t (List.mem_filter.mp ht).1 u hu
  have hlow : u ∈ H.toLowerCase query := by
    have hpre : trim (H.toLowerCase query) <+: (H.toLowerCase query).dropWhile isWhite :=
      List.rdropWhile_prefix isWhite _
    exact (List.dropWhile_suffix isWhite).subset (hpre.subset hmem)
  rw [hagree.1 query hq] at hlow
  obtain ⟨d, hd, hdu⟩ := List.mem_map.mp hlow
  rw [← hdu]
  exact hagree.2.1 d (hq d hd)

theorem lowerTagged_of_agree (H : Host) (A : Nat → Prop) (lo : Nat → Nat)
    (hagree : CaseAgree H A lo) (query : Str) (text : Option Str)
    (hq : ∀ c ∈ query, A c) (ht : ∀ c ∈ text.getD [], A c)
    (hterms : queryTerms H query ≠ []) : LowerTagged H query text := by
  obtain ⟨segs, hH, hflat, h1, h2⟩ := Highlight_pieces H query text hterms
  have hunits := queryTerms_units H A lo hagree query hq
  have hseg : ∀ seg b, (seg, b) ∈ segs → ∀ u ∈ seg, A u := by
    intro seg b hmem u hu
    apply ht u
    rw [← hflat]
    exact List.mem_flatten_of_mem (List.mem_map.mpr ⟨(seg, b), hmem, rfl⟩) hu
  have hfix : ∀ t ∈ queryTerms H query, t.map lo = t := by
    intro t htm
    conv_rhs => rw [← List.map_id t]
    apply List.map_congr_left
    intro u hu
    exact (hunits t htm u hu).2
  refine ⟨segs, hH, ?_, ?_⟩
  · intro seg hmem
    obtain ⟨t, htm, hc⟩ := h1 seg hmem
    refine ⟨t, htm, ?_⟩
    rw [hagree.1 seg (hseg seg true hmem), ← hfix t htm]
    exact map_eq_map_of_agree (fun x y hx hy h => (hagree.2.2 x y hx hy).mp h) seg t
      (hseg seg true hmem) (fun u hu => (hunits t htm u hu).1) hc
  · intro seg hmem t htm hin
    apply h2 seg hmem t htm
    rw [hagree.1 seg (hseg seg false hmem)] at hin
    obtain ⟨a, b, hab⟩ := hin
    obtain ⟨l1, l2, hsegeq, hl1, _⟩ := List.map_eq_append_iff.mp hab.symm
    obtain ⟨l11, m, hl1eq, _, hm⟩ := List.map_eq_append_iff.mp hl1
    have hmA : ∀ u ∈ m, A u := by
      intro u hu
      apply hseg seg false hmem u
      rw [hsegeq, hl1eq]
      simp [hu]
    have hmt : m.map lo = t.map lo := by rw [hm, hfix t htm]
    have hcan : m.map H.canonicalize = t.map H.canonicalize :=
      map_eq_map_of_agree (fun x y hx hy h => (hagree.2.2 x y hx hy).mpr h) m t hmA
        (fun u hu => (hunits t htm u hu).1) hmt
    unfold Occurs
    rw [← hcan, hsegeq, hl1eq]
    exact ⟨l11.map H.canonicalize, l2.map H.canonicalize, by simp⟩

/-- C3 (as stated, refuted): with the case tables of the Kelvin sign, the text
"K" (U+212A) is one piece tagged as unmatched for the query "k", although
lower-cased it is the term "k" and `scoreMatch` counts it. -/
theorem highlight_kelvin_unmarked :
    Highlight kelvinHost (str "k") (some [8490]) = some [([8490], false)] ∧
    queryTerms kelvinHost (str "k") = [str "k"] ∧
    kelvinHost.toLowerCase [8490] = str "k" ∧
    scoreMatch kelvinHost (str "k") (some [8490]) = some 1 ∧
    ¬ LowerTagged kelvinHost (str "k") (some [8490]) := by
  refine ⟨by decide, by decide, by decide, by decide, ?_⟩
  rintro ⟨segs, hH, _, h2⟩
  have hval : Highlight kelvinHost (str "k") (some [8490]) = some [([8490], false)] := by decide
  rw [hval] at hH
  have hsegs : segs = [([8490], false)] := (Option.some.inj hH).symm
  subst hsegs
  have hterm : str "k" ∈ queryTerms kelvinHost (str "k") := by decide
  exact h2 [8490] (List.mem_singleton.mpr rfl) (str "k") hterm ⟨[], [], by decide⟩

/-- C3 (amended): for every query with at least one term and every text, each
piece that `Highlight` tags as matched equals one of the query's terms taken
literally, and no piece tagged as unmatched contains an occurrence of a term,
units being compared after the case canonicalisation of the pattern matcher
(flag `i`). On text and query made of units on which that canonicalisation and
lower-casing agree, the same holds with lower-casing: a matched piece is,
lower-cased, a term, and no unmatched piece contains, lower-cased, a term. For
query "a.b+c" and text "a.b+c is a.bXc" exactly the leading "a.b+c" is tagged. -/
theorem highlight_tags (H : Host) (query : Str) (text : Option Str)
    (hterms : queryTerms H query ≠ []) :
    (∃ segs, Highlight H query text = some segs ∧
      (∀ seg, (seg, true) ∈ segs → ∃ t ∈ queryTerms H query, CanonEq H seg t) ∧
      (∀ seg, (seg, false) ∈ segs → ∀ t ∈ queryTerms H query, ¬ Occurs H t seg)) ∧
    (∀ (A : Nat → Prop) (lo : Nat → Nat), CaseAgree H A lo →
      (∀ c ∈ query, A c) → (∀ c ∈ text.getD [], A c) → LowerTagged H query text) ∧
    Highlight asciiHost (str "a.b+c") (some (str "a.b+c is a.bXc"))
      = some [(str "", false), (str "a.b+c", true), (str " is a.bXc", false)] := by
  refine ⟨?_, ?_, by decide⟩
  · obtain ⟨segs, hH, _, h1, h2⟩ := Highlight_pieces H query text hterms
    exact ⟨segs, hH, h1, h2⟩
  · intro A lo hagree hq ht
    exact lowerTagged_of_agree H A lo hagree query text hq ht hterms

theorem upperUnit_lowerUnit (c : Nat) : upperUnit (lowerUnit c) = upperUnit c := by
  unfold upperUnit lowerUnit
  split_ifs <;> omega

theorem lowerUnit_upperUnit (c : Nat) : lowerUnit (upperUnit c) = lowerUnit c := by
  unfold upperUnit lowerUnit
  split_ifs <;> omega

theorem asciiHost_caseAgree : CaseAgree asciiHost (fun _ => True) lowerUnit := by
  refine ⟨fun s _ => rfl, fun a _ => ⟨trivial, lowerUnit_idem a⟩, ?_⟩
  intro a b _ _
  show upperUnit a = upperUnit b ↔ lowerUnit a = lowerUnit b
  constructor
  · intro h
    rw [← lowerUnit_upperUnit a, ← lowerUnit_upperUnit b, h]
  · intro h
    rw [← upperUnit_lowerUnit a, ← upperUnit_lowerUnit b, h]

theorem highlight_tags_witness :
    queryTerms asciiHost (str "Tender guide") ≠ [] ∧
    (∃ segs, Highlight asciiHost (str "Tender guide") (some (str "TENDER Guide: tenders")) = some segs ∧
      (∀ seg, (seg, true) ∈ segs →
        ∃ t ∈ queryTerms asciiHost (str "Tender guide"), CanonEq asciiHost seg t) ∧
      (∀ seg, (seg, false) ∈ segs →
        ∀ t ∈ queryTerms asciiHost (str "Tender guide"), ¬ Occurs asciiHost t seg)) ∧
    LowerTagged asciiHost (str "Tender guide") (some (str "TENDER Guide: tenders")) :=
  ⟨by decide,
    (highlight_tags asciiHost (str "Tender guide") (some (str "TENDER Guide: tenders"))
      (by decide)).1,
    (highlight_tags asciiHost (str "Tender guide") (some (str "TENDER Guide: tenders"))
      (by decide)).2.1 (fun _ => True) lowerUnit asciiHost_caseAgree
      (fun _ _ => trivial) (fun _ _ => trivial)⟩

/-! ## Lemmas on the pipeline -/

theorem andThen_ok {α β : Type} (a : α) (f : α → Outcome β) :
    (Outcome.ok a).andThen f = f a := rfl

theorem andThen_threw {α β : Type} (e : Failure) (f : α → Outcome β) :
    (Outcome.threw e : Outcome α).andThen f = Outcome.threw e := rfl

theorem andThen_eq_ok {α β : Type} {x : Outcome α} {f : α → Outcome β} {b : β}
    (h : x.andThen f = Outcome.ok b) : ∃ a, x = Outcome.ok a ∧ f a = Outcome.ok b := by
  cases x with
  | ok a => exact ⟨a, rfl, h⟩
  | threw e => exact Outcome.noConfusion h

theorem scoreMatch_some (H : Host) (q : Str) (t : Option Str) :
    scoreMatch H q t = some (scoreVal H q t) := by
  have h : ∃ n, scoreMatch H q t = some n := by
    unfold scoreMatch
    by_cases hq : q = []
    · exact ⟨0, by simp [hq]⟩
    · simp only [hq, if_false]
      exact ⟨_, scoreFold_spec _ _ _⟩
  obtain ⟨n, hn⟩ := h
  simp [scoreVal, hn]

theorem rowOf_eq (H : Host) (q : Str) (x : Item) : rowOf H q x = Outcome.ok (pureRow H q x) := by
  simp only [rowOf, scoreMatch_some, pureRow]

theorem mapRows_rowOf (H : Host) (q : Str) (l : List Item) :
    mapRows (rowOf H q) l = Outcome.ok (l.map (pureRow H q)) := by
  induction l with
  | nil => rfl
  | cons x xs ih => simp only [mapRows, rowOf_eq, ih, andThen_ok, List.map_cons]

theorem computed_eq (H : Host) (items : List Item) (query category sort : Str) :
    computed H items query category sort
      = ((if sort = sortAsc then sortRows (compareAsc H) (passedRows H items query category)
          else Outcome.ok (passedRows H items query category)).andThen
        (fun rows1 =>
          (if sort = sortDesc then sortRows (compareDesc H) rows1
            else Outcome.ok rows1).andThen
            (fun rows2 =>
              if sort = sortRelevance then sortRows (compareRelevance H) rows2
              else Outcome.ok rows2))) := by
  unfold computed passedRows selectedItems
  simp only [mapRows_rowOf, andThen_ok]

theorem insertRow_perm (cmp : Row → Row → Outcome Int) (x : Row) (ys r : List Row)
    (h : insertRow cmp x ys = Outcome.ok r) : r.Perm (x :: ys) := by
  induction ys generalizing r with
  | nil =>
    simp only [insertRow, Outcome.ok.injEq] at h
    subst h
    exact List.Perm.refl _
  | cons y ys ih =>
    simp only [insertRow] at h
    obtain ⟨c, _, hc⟩ := andThen_eq_ok h
    by_cases hlt : c < 0
    · simp only [hlt, if_true] at hc
      obtain ⟨rest, hrest, hr⟩ := andThen_eq_ok hc
      simp only [Outcome.ok.injEq] at hr
      subst hr
      exact ((ih rest hrest).cons y).trans (List.Perm.swap x y ys)
    · simp only [hlt, if_false, Outcome.ok.injEq] at hc
      subst hc
      exact List.Perm.refl _

theorem sortLoop_perm (cmp : Row → Row → Outcome Int) (xs : List Row) :
    ∀ done r, sortLoop cmp done xs = Outcome.ok r → r.Perm (done ++ xs) := by
  induction xs with
  | nil =>
    intro done r h
    simp only [sortLoop, Outcome.ok.injEq] at h
    subst h
    simp
  | cons x xs ih =>
    intro done r h
    simp only [sortLoop] at h
    obtain ⟨done1, h1, h2⟩ := andThen_eq_ok h
    have p1 := insertRow_perm cmp x done done1 h1
    have p2 := ih done1 r h2
    exact p2.trans ((p1.append_right xs).trans List.perm_middle.symm)

theorem sortRows_perm (cmp : Row → Row → Outcome Int) (l r : List Row)
    (h : sortRows cmp l = Outcome.ok r) : r.Perm l := by
  simpa using sortLoop_perm cmp l [] r h

theorem computed_perm (H : Host) (items : List Item) (query category sort : Str)
    (rows : List Row) (h : computed H items query category sort = Outcome.ok rows) :
    rows.Perm (passedRows H items query category) := by
  rw [computed_eq] at h
  obtain ⟨rows1, h1, h⟩ := andThen_eq_ok h
  obtain ⟨rows2, h2, h3⟩ := andThen_eq_ok h
  have p1 : rows1.Perm (passedRows H items query category) := by
    by_cases hs : sort = sortAsc
    · simp only [hs, if_true] at h1
      exact sortRows_perm _ _ _ h1
    · simp only [hs, if_false, Outcome.ok.injEq] at h1
      subst h1
      exact List.Perm.refl _
  have p2 : rows2.Perm rows1 := by
    by_cases hs : sort = sortDesc
    · simp only [hs, if_true] at h2
      exact sortRows_perm _ _ _ h2
    · simp only [hs, if_false, Outcome.ok.injEq] at h2
      subst h2
      exact List.Perm.refl _
  have p3 : rows.Perm rows2 := by
    by_cases hs : sort = sortRelevance
    · simp only [hs, if_true] at h3
      exact sortRows_perm _ _ _ h3
    · simp only [hs, if_false, Outcome.ok.injEq] at h3
      subst h3
      exact List.Perm.refl _
  exact (p3.trans p2).trans p1

theorem insertRow_of_ok (cmp : Row → Row → Outcome Int) (c : Row → Row → Int)
    (hagree : ∀ a b v, cmp a b = Outcome.ok v → v = c a b) (x : Row) (ys r : List Row)
    (h : insertRow cmp x ys = Outcome.ok r) :
    r = ys.orderedInsert (fun a b => 0 ≤ c a b) x := by
  induction ys generalizing r with
  | nil =>
    simp only [insertRow, Outcome.ok.injEq] at h
    subst h
    rfl
  | cons y ys ih =>
    simp only [insertRow] at h
    obtain ⟨v, hv, hc⟩ := andThen_eq_ok h
    have hvc := hagree x y v hv
    subst hvc
    by_cases hlt : c x y < 0
    · simp only [hlt, if_true] at hc
      obtain ⟨rest, hrest, hr⟩ := andThen_eq_ok hc
      simp only [Outcome.ok.injEq] at hr
      subst hr
      have hn : ¬ 0 ≤ c x y := by omega
      simp [List.orderedInsert, hn, ih rest hrest]
    · simp only [hlt, if_false, Outcome.ok.injEq] at hc
      subst hc
      have hn : 0 ≤ c x y := by omega
      simp [List.orderedInsert, hn]

theorem sortLoop_of_ok (cmp : Row → Row → Outcome Int) (c : Row → Row → Int)
    (hagree : ∀ a b v, cmp a b = Outcome.ok v → v = c a b) (xs : List Row) :
    ∀ done r, sortLoop cmp done xs = Outcome.ok r →
      r = (xs.foldl (fun d x => d.orderedInsert (fun a b => 0 ≤ c a b) x) done).reverse := by
  induction xs with
  | nil =>
    intro done r h
    simp only [sortLoop, Outcome.ok.injEq] at h
    subst h
    rfl
  | cons x xs ih =>
    intro done r h
    simp only [sortLoop] at h
    obtain ⟨done1, h1, h2⟩ := andThen_eq_ok h
    have e1 := insertRow_of_ok cmp c hagree x done done1 h1
    subst e1
    exact ih _ r h2

theorem sortRows_of_ok (cmp : Row → Row → Outcome Int) (c : Row → Row → Int)
    (hagree : ∀ a b v, cmp a b = Outcome.ok v → v = c a b) (l r : List Row)
    (h : sortRows cmp l = Outcome.ok r) : r = pureSort c l :=
  sortLoop_of_ok cmp c hagree l [] r h

theorem insertRow_returns (cmp : Row → Row → Outcome Int) (x : Row) (ys : List Row)
    (h : ∀ y ∈ ys, ∃ v, cmp x y = Outcome.ok v) : ∃ r, insertRow cmp x ys = Outcome.ok r := by
  induction ys with
  | nil => exact ⟨[x], rfl⟩
  | cons y ys ih =>
    obtain ⟨v, hv⟩ := h y (List.mem_cons_self _ _)
    obtain ⟨rest, hrest⟩ := ih (fun z hz => h z (List.mem_cons_of_mem _ hz))
    simp only [insertRow, hv, andThen_ok]
    by_cases hlt : v < 0
    · exact ⟨y :: rest, by simp [hlt, hrest, andThen_ok]⟩
    · exact ⟨x :: y :: ys, by simp [hlt]⟩

theorem sortLoop_returns (cmp : Row → Row → Outcome Int) (xs : List Row) :
    ∀ done, (∀ y ∈ done, ∀ x ∈ xs, ∃ v, cmp x y = Outcome.ok v) →
      xs.Pairwise (fun y x => ∃ v, cmp x y = Outcome.ok v) →
      ∃ r, sortLoop cmp done xs = Outcome.ok r := by
  induction xs with
  | nil => intro done _ _; exact ⟨done.reverse, rfl⟩
  | cons x xs ih =>
    intro done hdone hpw
    obtain ⟨done1, h1⟩ := insertRow_returns cmp x done
      (fun y hy => hdone y hy x (List.mem_cons_self _ _))
    have hperm := insertRow_perm cmp x done done1 h1
    rw [List.pairwise_cons] at hpw
    obtain ⟨r, hr⟩ := ih done1
      (by
        intro y hy z hz
        rcases List.mem_cons.mp (hperm.subset hy) with he | hm
        · subst he
          exact hpw.1 z hz
        · exact hdone y hm z (List.mem_cons_of_mem _ hz))
      hpw.2
    exact ⟨r, by simp only [sortLoop, h1, andThen_ok, hr]⟩

theorem sortRows_returns (cmp : Row → Row → Outcome Int) (l : List Row)
    (h : l.Pairwise (fun y x => ∃ v, cmp x y = Outcome.ok v)) :
    ∃ r, sortRows cmp l = Outcome.ok r :=
  sortLoop_returns cmp l [] (fun y hy => absurd hy (List.not_mem_nil y)) h

theorem foldl_orderedInsert_perm (ρ : Row → Row → Prop) [DecidableRel ρ] (xs : List Row) :
    ∀ done : List Row,
      (xs.foldl (fun (d : List Row) (x : Row) => d.orderedInsert ρ x) done).Perm (done ++ xs) := by
  induction xs with
  | nil => intro done; simp
  | cons x xs ih =>
    intro done
    simp only [List.foldl_cons]
    exact (ih _).trans
      (((List.perm_orderedInsert ρ x done).append_right xs).trans List.perm_middle.symm)

theorem pureSort_perm (c : Row → Row → Int) (l : List Row) : (pureSort c l).Perm l := by
  unfold pureSort
  exact (List.reverse_perm _).trans (by simpa using foldl_orderedInsert_perm _ l [])

theorem foldl_orderedInsert_sorted (ρ : Row → Row → Prop) [DecidableRel ρ] [IsTotal Row ρ]
    [IsTrans Row ρ] (xs : List Row) :
    ∀ done : List Row, done.Sorted ρ →
      (xs.foldl (fun (d : List Row) (x : Row) => d.orderedInsert ρ x) done).Sorted ρ := by
  induction xs with
  | nil => intro done h; exact h
  | cons x xs ih =>
    intro done h
    simp only [List.foldl_cons]
    exact ih _ (h.orderedInsert x done)

theorem pureSort_sorted (c : Row → Row → Int)
    (hcons : ∀ a b, 0 ≤ c a b ↔ c b a ≤ 0)
    (htrans : ∀ a b d, c a b ≤ 0 → c b d ≤ 0 → c a d ≤ 0) (l : List Row) :
    (pureSort c l).Pairwise (fun x y => c x y ≤ 0) := by
  haveI : IsTotal Row (fun a b => 0 ≤ c a b) := ⟨by
    intro a b
    by_cases h : 0 ≤ c a b
    · exact Or.inl h
    · exact Or.inr ((hcons b a).mpr (by omega))⟩
  haveI : IsTrans Row (fun a b => 0 ≤ c a b) := ⟨by
    intro a b d h1 h2
    exact (hcons a d).mpr (htrans d b a ((hcons b d).mp h2) ((hcons a b).mp h1))⟩
  have hs := foldl_orderedInsert_sorted (fun a b => 0 ≤ c a b) l [] List.sorted_nil
  unfold pureSort
  rw [List.pairwise_reverse]
  refine List.Pairwise.imp ?_ hs
  intro a b hab
  exact (hcons a b).mp hab

theorem titleKey_of_title {r : Row} {t : Str} (h : r.item.title = some t) : titleKey r = t := by
  simp [titleKey, h]

theorem compareAsc_pure (H : Host) (a b : Row) (ha : a.item.title ≠ none) :
    compareAsc H a b = Outcome.ok (ascVal H a b) := by
  cases hta : a.item.title with
  | none => exact absurd hta ha
  | some ta => simp [compareAsc, ascVal, hta, titleKey_of_title hta]

theorem compareDesc_pure (H : Host) (a b : Row) (hb : b.item.title ≠ none) :
    compareDesc H a b = Outcome.ok (descVal H a b) := by
  cases htb : b.item.title with
  | none => exact absurd htb hb
  | some tb => simp [compareDesc, descVal, htb, titleKey_of_title htb]

theorem compareRelevance_pure (H : Host) (a b : Row)
    (ha : a.score = b.score → a.item.title ≠ none) :
    compareRelevance H a b = Outcome.ok (relVal H a b) := by
  unfold compareRelevance relVal
  by_cases hd : (b.score : Int) - (a.score : Int) ≠ 0
  · simp only []
    rw [if_pos hd, if_pos hd]
  · simp only []
    rw [if_neg hd, if_neg hd]
    exact compareAsc_pure H a b (ha (by omega))

theorem compareAsc_agree (H : Host) (a b : Row) (v : Int)
    (h : compareAsc H a b = Outcome.ok v) : v = ascVal H a b := by
  cases hta : a.item.title with
  | none => simp [compareAsc, hta] at h
  | some ta =>
    rw [compareAsc_pure H a b (by simp [hta])] at h
    exact (Outcome.ok.inj h).symm

theorem compareDesc_agree (H : Host) (a b : Row) (v : Int)
    (h : compareDesc H a b = Outcome.ok v) : v = descVal H a b := by
  cases htb : b.item.title with
  | none => simp [compareDesc, htb] at h
  | some tb =>
    rw [compareDesc_pure H a b (by simp [htb])] at h
    exact (Outcome.ok.inj h).symm

theorem compareRelevance_agree (H : Host) (a b : Row) (v : Int)
    (h : compareRelevance H a b = Outcome.ok v) : v = relVal H a b := by
  unfold compareRelevance at h
  unfold relVal
  by_cases hd : (b.score : Int) - (a.score : Int) ≠ 0
  · simp only [] at h
    rw [if_pos hd] at h
    rw [if_pos hd]
    exact (Outcome.ok.inj h).symm
  · simp only [] at h
    rw [if_neg hd] at h
    rw [if_neg hd]
    exact compareAsc_agree H a b v h

theorem relVal_le_iff (H : Host) (a b : Row) :
    relVal H a b ≤ 0 ↔ RelevanceOrdered H a b := by
  unfold relVal RelevanceOrdered TitleLe
  by_cases hd : (b.score : Int) - (a.score : Int) ≠ 0
  · rw [if_pos hd]
    omega
  · rw [if_neg hd]
    constructor
    · intro h
      exact Or.inr ⟨by omega, h⟩
    · rintro (h | ⟨_, h⟩)
      · omega
      · exact h

theorem relVal_cons (H : Host) (hcol : CollationPreorder H) (a b : Row) :
    0 ≤ relVal H a b ↔ relVal H b a ≤ 0 := by
  unfold relVal
  by_cases hd : (b.score : Int) - (a.score : Int) ≠ 0
  · have hd' : (a.score : Int) - (b.score : Int) ≠ 0 := by omega
    rw [if_pos hd, if_pos hd']
    omega
  · have hd' : ¬ ((a.score : Int) - (b.score : Int) ≠ 0) := by omega
    rw [if_neg hd, if_neg hd']
    exact hcol.1 _ _

theorem relVal_trans (H : Host) (hcol : CollationPreorder H) (a b d : Row)
    (h1 : relVal H a b ≤ 0) (h2 : relVal H b d ≤ 0) : relVal H a d ≤ 0 := by
  rw [relVal_le_iff] at h1 h2 ⊢
  unfold RelevanceOrdered TitleLe at h1 h2 ⊢
  rcases h1 with h1 | ⟨e1, t1⟩
  · rcases h2 with h2 | ⟨e2, _⟩
    · exact Or.inl (by omega)
    · exact Or.inl (by omega)
  · rcases h2 with h2 | ⟨e2, t2⟩
    · exact Or.inl (by omega)
    · exact Or.inr ⟨by omega, hcol.2 _ _ _ t1 t2⟩

theorem mem_passedRows {H : Host} {items : List Item} {query category : Str} {r : Row}
    (h : r ∈ passedRows H items query category) :
    r.item ∈ selectedItems items category ∧
      r = pureRow H (normalize H (some query)) r.item ∧ r.ok = true := by
  simp only [passedRows, List.mem_filter, List.mem_map] at h
  obtain ⟨⟨x, hx, hr⟩, hok⟩ := h
  subst hr
  exact ⟨hx, rfl, hok⟩

theorem selectedItems_subset {items : List Item} {category : Str} {x : Item}
    (h : x ∈ selectedItems items category) : x ∈ items := by
  unfold selectedItems at h
  split at h
  · exact h
  · exact (List.mem_filter.mp h).1

theorem passedRows_title (H : Host) (items : List Item) (query category : Str)
    (htitle : ∀ x ∈ items, x.title ≠ none) :
    ∀ r ∈ passedRows H items query category, r.item.title ≠ none := by
  intro r hr
  exact htitle _ (selectedItems_subset (mem_passedRows hr).1)

theorem sortRows_pure (cmp : Row → Row → Outcome Int) (c : Row → Row → Int) (l : List Row)
    (hagree : ∀ a b v, cmp a b = Outcome.ok v → v = c a b)
    (h : ∀ a ∈ l, ∀ b ∈ l, ∃ v, cmp a b = Outcome.ok v) :
    sortRows cmp l = Outcome.ok (pureSort c l) := by
  obtain ⟨r, hr⟩ := sortRows_returns cmp l
    (List.pairwise_of_forall_mem_list (fun y hy x hx => h x hx y hy))
  rw [hr, sortRows_of_ok cmp c hagree l r hr]

/-! ## C4: the relevance order -/

/-- C4: for every record set, query and category, when the sort mode is
`'Релевантность'` and the title collation is that of a total preorder, every
list `computed` returns has each adjacent pair `(x, y)` with
`score(x) > score(y)`, or equal scores and `title(x) <= title(y)`; the score of
a row is the value of `scoreMatch` on its haystack. A list is returned whenever
the rows that tie on the score have a title. -/
theorem computed_relevance_sorted (H : Host) (items : List Item) (query category : Str)
    (hcol : CollationPreorder H) :
    (∀ rows, computed H items query category sortRelevance = Outcome.ok rows →
      List.Chain' (RelevanceOrdered H) rows ∧
      ∀ r ∈ rows,
        scoreMatch H (normalize H (some query)) (some (hayOf r.item)) = some r.score) ∧
    (TiesTitled (passedRows H items query category) →
      ∃ rows, computed H items query category sortRelevance = Outcome.ok rows) := by
  have h1 : sortRelevance ≠ sortAsc := by decide
  have h2 : sortRelevance ≠ sortDesc := by decide
  have heq : computed H items query category sortRelevance
      = sortRows (compareRelevance H) (passedRows H items query category) := by
    rw [computed_eq]
    simp only [h1, h2, if_false, if_true, andThen_ok]
  rw [heq]
  constructor
  · intro rows hrows
    have hps := sortRows_of_ok (compareRelevance H) (relVal H) (compareRelevance_agree H) _ rows hrows
    have hperm := sortRows_perm _ _ rows hrows
    constructor
    · rw [hps]
      apply List.Pairwise.chain'
      refine List.Pairwise.imp ?_
        (pureSort_sorted (relVal H) (relVal_cons H hcol) (relVal_trans H hcol) _)
      intro a b hab
      exact (relVal_le_iff H a b).mp hab
    · intro r hr
      have hm := (mem_passedRows (hperm.subset hr)).2.1
      have hscore : r.score = scoreVal H (normalize H (some query)) (some (hayOf r.item)) := by
        conv_lhs => rw [hm]
        rfl
      rw [hscore]
      exact scoreMatch_some _ _ _
  · intro hties
    apply sortRows_returns
    refine List.Pairwise.imp ?_ hties
    intro y x hxy
    exact ⟨_, compareRelevance_pure H x y (fun he => (hxy he).1)⟩

/-! ## The pipeline on records with titles -/

theorem computed_of_titles (H : Host) (items : List Item) (query category sort : Str)
    (htitle : ∀ x ∈ items, x.title ≠ none) :
    computed H items query category sort
      = Outcome.ok (sortedRows H items query category sort) := by
  have hts := passedRows_title H items query category htitle
  have hAD : sortAsc ≠ sortDesc := by decide
  have hAR : sortAsc ≠ sortRelevance := by decide
  have hDR : sortDesc ≠ sortRelevance := by decide
  rw [computed_eq]
  unfold sortedRows
  by_cases h1 : sort = sortAsc
  · subst h1
    rw [if_pos rfl, sortRows_pure (compareAsc H) (ascVal H) _ (compareAsc_agree H)
      (fun a ha b _ => ⟨_, compareAsc_pure H a b (hts a ha)⟩)]
    simp only [if_true, andThen_ok, hAD, hAR, if_false]
  · by_cases h2 : sort = sortDesc
    · subst h2
      rw [if_neg h1, andThen_ok, if_pos rfl,
        sortRows_pure (compareDesc H) (descVal H) _ (compareDesc_agree H)
          (fun a _ b hb => ⟨_, compareDesc_pure H a b (hts b hb)⟩)]
      simp only [if_true, andThen_ok, hAD.symm, hDR, if_false]
    · by_cases h3 : sort = sortRelevance
      · subst h3
        rw [if_neg h1, andThen_ok, if_neg h2, andThen_ok, if_pos rfl,
          sortRows_pure (compareRelevance H) (relVal H) _ (compareRelevance_agree H)
            (fun a ha b _ => ⟨_, compareRelevance_pure H a b (fun _ => hts a ha)⟩)]
        simp only [hAR.symm, hDR.symm, if_false, if_true]
      · simp only [h1, h2, h3, if_false, andThen_ok]

theorem sortedRows_perm (H : Host) (items : List Item) (query category sort : Str) :
    (sortedRows H items query category sort).Perm (passedRows H items query category) := by
  unfold sortedRows
  split
  · exact pureSort_perm _ _
  · split
    · exact pureSort_perm _ _
    · split
      · exact pureSort_perm _ _
      · exact List.Perm.refl _

theorem sortedRows_asc (H : Host) (items : List Item) (query category : Str)
    (hcol : CollationPreorder H) :
    List.Chain' (TitleLe H) (sortedRows H items query category sortAsc) := by
  unfold sortedRows
  rw [if_pos rfl]
  apply List.Pairwise.chain'
  exact pureSort_sorted (ascVal H) (fun a b => hcol.1 _ _)
    (fun a b d h1 h2 => hcol.2 _ _ _ h1 h2) _

theorem sortedRows_desc (H : Host) (items : List Item) (query category : Str)
    (hcol : CollationPreorder H) :
    List.Chain' (fun x y => TitleLe H y x) (sortedRows H items query category sortDesc) := by
  have hDA : sortDesc ≠ sortAsc := by decide
  unfold sortedRows
  rw [if_neg hDA, if_pos rfl]
  apply List.Pairwise.chain'
  exact pureSort_sorted (descVal H) (fun a b => hcol.1 _ _)
    (fun a b d h1 h2 => hcol.2 _ _ _ h2 h1) _

theorem sortedRows_relevance (H : Host) (items : List Item) (query category : Str)
    (hcol : CollationPreorder H) :
    List.Chain' (RelevanceOrdered H) (sortedRows H items query category sortRelevance) := by
  have hRA : sortRelevance ≠ sortAsc := by decide
  have hRD : sortRelevance ≠ sortDesc := by decide
  unfold sortedRows
  rw [if_neg hRA, if_neg hRD, if_pos rfl]
  apply List.Pairwise.chain'
  refine List.Pairwise.imp ?_
    (pureSort_sorted (relVal H) (relVal_cons H hcol) (relVal_trans H hcol) _)
  intro a b hab
  exact (relVal_le_iff H a b).mp hab

/-! ## Blank queries -/

theorem trim_of_white (s : Str) (h : ∀ c ∈ s, isWhite c = true) : trim s = [] := by
  unfold trim
  have h1 : s.dropWhile isWhite = [] := List.dropWhile_eq_nil_iff.mpr h
  simp [h1]

theorem normalize_blank (H : Host) (hwhite : KeepsWhite H) (query : Str)
    (hq : ∀ c ∈ query, isWhite c = true) : normalize H (some query) = [] := by
  unfold normalize
  exact trim_of_white _ (hwhite query hq)

theorem pureRow_nil (H : Host) (x : Item) :
    pureRow H [] x = { item := x, score := 0, ok := true } := by
  have hs : ∀ t, scoreVal H [] t = 0 := by
    intro t
    simp [scoreVal, scoreMatch]
  simp [pureRow, hs, okFlag, truthy]

theorem passedRows_blank (H : Host) (items : List Item) (query category : Str)
    (hq : normalize H (some query) = []) :
    passedRows H items query category
      = (selectedItems items category).map (fun x => { item := x, score := 0, ok := true }) := by
  unfold passedRows
  rw [hq]
  have hfun : pureRow H [] = fun x => ({ item := x, score := 0, ok := true } : Row) := by
    funext x
    exact pureRow_nil H x
  rw [hfun]
  apply List.filter_eq_self.mpr
  intro r hr
  obtain ⟨x, _, hx⟩ := List.mem_map.mp hr
  subst hx
  rfl

theorem selectedItems_all (items : List Item) : selectedItems items allCategory = items := by
  simp [selectedItems]

/-! ## The host used for evaluation -/

theorem compareUnits_cons (a b : Str) : 0 ≤ compareUnits a b ↔ compareUnits b a ≤ 0 := by
  induction a generalizing b with
  | nil => cases b <;> simp [compareUnits]
  | cons x a ih =>
    cases b with
    | nil => simp [compareUnits]
    | cons y b =>
      simp only [compareUnits]
      rcases Nat.lt_trichotomy x y with h | h | h
      · have h' : ¬ y < x := by omega
        simp [h, h']
      · subst h
        simpa using ih b
      · have h' : ¬ x < y := by omega
        simp [h, h']

theorem compareUnits_trans (a b c : Str) (h1 : compareUnits a b ≤ 0)
    (h2 : compareUnits b c ≤ 0) : compareUnits a c ≤ 0 := by
  induction a generalizing b c with
  | nil => cases c <;> simp [compareUnits]
  | cons x a ih =>
    cases b with
    | nil => simp [compareUnits] at h1
    | cons y b =>
      cases c with
      | nil => simp [compareUnits] at h2
      | cons z c =>
        simp only [compareUnits] at h1 h2 ⊢
        by_cases hxy : x < y
        · by_cases hyz : y < z
          · have : x < z := by omega
            simp [this]
          · by_cases hzy : z < y
            · simp [hyz, hzy] at h2
            · have : x < z := by omega
              simp [this]
        · by_cases hyx : y < x
          · simp [hxy, hyx] at h1
          · simp only [hxy, hyx, if_false] at h1
            by_cases hyz : y < z
            · have : x < z := by omega
              simp [this]
            · by_cases hzy : z < y
              · simp [hyz, hzy] at h2
              · simp only [hyz, hzy, if_false] at h2
                have hxz : ¬ x < z := by omega
                have hzx : ¬ z < x := by omega
                simp only [hxz, hzx, if_false]
                exact ih b c h1 h2

theorem asciiHost_collation : CollationPreorder asciiHost :=
  ⟨compareUnits_cons, compareUnits_trans⟩

theorem lowerUnit_white (c : Nat) (h : isWhite c = true) : lowerUnit c = c := by
  simp only [isWhite, Bool.or_eq_true, beq_iff_eq, Bool.and_eq_true, decide_eq_true_eq] at h
  unfold lowerUnit
  split_ifs <;> omega

theorem asciiHost_keepsWhite : KeepsWhite asciiHost := by
  intro s hs c hc
  obtain ⟨d, hd, hdc⟩ := List.mem_map.mp hc
  rw [← hdc, lowerUnit_white d (hs d hd)]
  exact hs d hd

/-! ## C5: blank queries -/

/-- Blank-query pass-through on records with titles: when every record has a
title, the query is empty or made of white space only and the category is
`'Все'`, `computed` returns every input record exactly once, each with score 0,
ordered as the mode prescribes: by title for `'А-Я'`, by title backwards for
`'Я-А'`, by relevance for `'Релевантность'`, in input order for any other
value. -/
theorem blank_query_passes_titled (H : Host) (items : List Item) (query sort : Str)
    (hwhite : KeepsWhite H) (hq : ∀ c ∈ query, isWhite c = true)
    (hcol : CollationPreorder H) (htitle : ∀ x ∈ items, x.title ≠ none) :
    ∃ rows, computed H items query allCategory sort = Outcome.ok rows ∧
      (rows.map (fun r => r.item)).Perm items ∧
      (∀ r ∈ rows, r.score = 0) ∧
      (sort = sortAsc → List.Chain' (TitleLe H) rows) ∧
      (sort = sortDesc → List.Chain' (fun x y => TitleLe H y x) rows) ∧
      (sort = sortRelevance → List.Chain' (RelevanceOrdered H) rows) ∧
      (sort ≠ sortAsc → sort ≠ sortDesc → sort ≠ sortRelevance →
        rows.map (fun r => r.item) = items) := by
  have hblank := passedRows_blank H items query allCategory (normalize_blank H hwhite query hq)
  rw [selectedItems_all] at hblank
  have hperm := sortedRows_perm H items query allCategory sort
  refine ⟨sortedRows H items query allCategory sort,
    computed_of_titles H items query allCategory sort htitle, ?_, ?_, ?_, ?_, ?_, ?_⟩
  · have h := hperm.map (fun r => r.item)
    rw [hblank] at h
    simpa [Function.comp_def] using h
  · intro r hr
    have h := hperm.subset hr
    rw [hblank] at h
    obtain ⟨x, _, hx⟩ := List.mem_map.mp h
    subst hx
    rfl
  · intro hs
    subst hs
    exact sortedRows_asc H items query allCategory hcol
  · intro hs
    subst hs
    exact sortedRows_desc H items query allCategory hcol
  · intro hs
    subst hs
    exact sortedRows_relevance H items query allCategory hcol
  · intro h1 h2 h3
    unfold sortedRows
    rw [if_neg h1, if_neg h2, if_neg h3, hblank]
    simp [Function.comp_def]

/-- C5 (the code departs from it): with two records without a title, category
`'Все'` and a query that is empty or made of white space, `computed` throws a
`TypeError` in each of the three sort modes instead of returning both records;
on the example record set, whose records have a title, the same queries return
every record once with score 0. -/
theorem blank_query_throws_without_titles :
    computed asciiHost untitledItems (str "  ") allCategory sortRelevance
      = Outcome.threw Failure.typeError ∧
    computed asciiHost untitledItems (str "  ") allCategory sortAsc
      = Outcome.threw Failure.typeError ∧
    computed asciiHost untitledItems (str "  ") allCategory sortDesc
      = Outcome.threw Failure.typeError ∧
    computed asciiHost untitledItems [] allCategory sortAsc
      = Outcome.threw Failure.typeError ∧
    computed asciiHost exampleItems (str "  ") allCategory sortAsc
      = Outcome.ok (exampleItems.map (fun x => { item := x, score := 0, ok := true })) ∧
    computed asciiHost exampleItems [] allCategory sortDesc
      = Outcome.ok (exampleItems.reverse.map (fun x => { item := x, score := 0, ok := true })) := by
  decide

/-! ## C6: the category filter -/

/-- C6: for every record set, query and sort mode and every category other
than `'Все'`, every record `computed` returns has its category equal to the
filter value; `computed` does return a list when the records have a title. -/
theorem computed_category_sound (H : Host) (items : List Item) (query category sort : Str)
    (hC : category ≠ allCategory) :
    (∀ rows, computed H items query category sort = Outcome.ok rows →
      ∀ r ∈ rows, r.item.category = category) ∧
    ((∀ x ∈ items, x.title ≠ none) →
      ∃ rows, computed H items query category sort = Outcome.ok rows) := by
  constructor
  · intro rows hrows r hr
    have hmem := (mem_passedRows ((computed_perm H items query category sort rows hrows).subset hr)).1
    unfold selectedItems at hmem
    rw [if_neg hC] at hmem
    simpa using (List.mem_filter.mp hmem).2
  · intro htitle
    exact ⟨_, computed_of_titles H items query category sort htitle⟩

theorem computed_category_sound_witness :
    str "Finance" ≠ allCategory ∧
    (∀ rows, computed asciiHost exampleItems (str "a") (str "Finance") sortAsc = Outcome.ok rows →
      ∀ r ∈ rows, r.item.category = str "Finance") ∧
    computed asciiHost exampleItems (str "a") (str "Finance") sortAsc
      = Outcome.ok [{ item := { id := 1, title := some (str "Audit Checklist"),
                                text := some (str "Annual audit process"),
                                category := str "Finance",
                                tags := some [str "audit", str "annual"] },
                      score := 7, ok := true }] :=
  ⟨by decide,
    (computed_category_sound asciiHost exampleItems (str "a") (str "Finance") sortAsc
      (by decide)).1,
    by decide⟩

/-! ## C7: records without a title -/

/-- C7 (the code departs from it): an absent text or tag list is written as the
empty string in the haystack, but with two records without a title `computed`
throws a `TypeError` in the state the component starts in (empty query,
category `'Все'`, mode `'Релевантность'`), and in the two other modes. -/
theorem computed_throws_without_titles :
    hayOf { id := 1, title := some (str "A"), text := none, category := [], tags := none }
      = str "A  " ∧
    computed asciiHost untitledItems (str "") allCategory sortRelevance
      = Outcome.threw Failure.typeError ∧
    computed asciiHost untitledItems (str "") allCategory sortAsc
      = Outcome.threw Failure.typeError ∧
    computed asciiHost untitledItems (str "") allCategory sortDesc
      = Outcome.threw Failure.typeError := by
  decide

/-! ## C8: punctuation in a query -/

/-- C8 (as stated, refuted): for the query "!!!" `computed` returns no record of
the example set, for the empty query it returns both. -/
theorem punctuation_query_is_not_blank :
    computed asciiHost exampleItems (str "!!!") allCategory sortRelevance = Outcome.ok [] ∧
    computed asciiHost exampleItems (str "") allCategory sortRelevance
      = Outcome.ok (exampleItems.map (fun x => { item := x, score := 0, ok := true })) := by
  decide

/-- C8 (amended): a query made of white space only behaves as the empty query:
for every record set, category and sort mode `computed` gives the same outcome
for both, and a list it returns holds every record of the selected category
exactly once. Lower-casing keeps white space white. -/
theorem computed_whitespace_query (H : Host) (items : List Item) (query category sort : Str)
    (hwhite : KeepsWhite H) (hq : ∀ c ∈ query, isWhite c = true) :
    computed H items query category sort = computed H items [] category sort ∧
    ∀ rows, computed H items query category sort = Outcome.ok rows →
      (rows.map (fun r => r.item)).Perm (selectedItems items category) := by
  have h1 := normalize_blank H hwhite query hq
  have h2 := normalize_blank H hwhite [] (by simp)
  constructor
  · rw [computed_eq, computed_eq]
    have hp : passedRows H items query category = passedRows H items [] category := by
      rw [passedRows_blank H items query category h1, passedRows_blank H items [] category h2]
    rw [hp]
  · intro rows hrows
    have h := (computed_perm H items query category sort rows hrows).map (fun r => r.item)
    rw [passedRows_blank H items query category h1] at h
    simpa [Function.comp_def] using h

theorem computed_whitespace_query_witness :
    KeepsWhite asciiHost ∧ (∀ c ∈ str " \t ", isWhite c = true) ∧
    computed asciiHost exampleItems (str " \t ") (str "Finance") sortAsc
      = computed asciiHost exampleItems [] (str "Finance") sortAsc :=
  ⟨asciiHost_keepsWhite, by decide,
    (computed_whitespace_query asciiHost exampleItems (str " \t ") (str "Finance") sortAsc
      asciiHost_keepsWhite (by decide)).1⟩

theorem computed_relevance_sorted_witness :
    CollationPreorder asciiHost ∧
    TiesTitled (passedRows asciiHost mixedItems (str "audit") allCategory) ∧
    ∃ rows, computed asciiHost mixedItems (str "audit") allCategory sortRelevance
        = Outcome.ok rows ∧
      List.Chain' (RelevanceOrdered asciiHost) rows :=
  ⟨asciiHost_collation, by unfold TiesTitled; decide,
    ((computed_relevance_sorted asciiHost mixedItems (str "audit") allCategory
      asciiHost_collation).2 (by unfold TiesTitled; decide)).elim
      (fun rows hr => ⟨rows, hr,
        ((computed_relevance_sorted asciiHost mixedItems (str "audit") allCategory
          asciiHost_collation).1 rows hr).1⟩)⟩

/-! ## C10: the safety net of the pass test -/

theorem splitOnP_head_prefix (P : Nat → Bool) (l : Str) :
    ∃ h tl, l.splitOnP P = h :: tl ∧ h <+: l := by
  induction l with
  | nil => exact ⟨[], [], by simp, List.prefix_refl _⟩
  | cons x xs ih =>
    obtain ⟨h, tl, heq, hpre⟩ := ih
    rw [List.splitOnP_cons]
    by_cases hx : P x = true
    · exact ⟨[], xs.splitOnP P, by simp [hx], List.nil_prefix⟩
    · refine ⟨x :: h, tl, by simp [hx, heq], ?_⟩
      exact (List.prefix_cons_inj x).mpr hpre

theorem trim_head_not_white (s : Str) (c : Nat) (cs : Str) (h : trim s = c :: cs) :
    isWhite c = false := by
  have hpre : trim s <+: s.dropWhile isWhite := List.rdropWhile_prefix isWhite _
  rw [h] at hpre
  obtain ⟨t, ht⟩ := hpre
  have hne : s.dropWhile isWhite ≠ [] := by
    rw [← ht]; simp
  have hhead := List.head_dropWhile_not isWhite s hne
  have hc : (s.dropWhile isWhite).head hne = c := by
    simp [← ht]
  rw [hc] at hhead
  exact hhead

theorem scanCount_pos_of_infix (p : Str) (hp : p ≠ []) (t : Str) (h : p <:+: t) :
    0 < scanCount p 0 t := by
  induction t with
  | nil =>
    rw [List.infix_nil] at h
    exact absurd h hp
  | cons c cs ih =>
    simp only [scanCount]
    by_cases hpre : p.isPrefixOf (c :: cs) = true
    · simp [hpre]
    · simp only [hpre, if_false, Bool.false_eq_true]
      rcases List.infix_cons_iff.mp h with h1 | h1
      · exact absurd (List.isPrefixOf_iff_prefix.mpr h1) hpre
      · exact ih h1

theorem indexOfAux_isSome_iff (p s : Str) (k : Nat) :
    (indexOfAux p s k).isSome = true ↔ p <:+: s := by
  induction s generalizing k with
  | nil =>
    simp only [indexOfAux, List.infix_nil]
    by_cases hp : p = [] <;> simp [hp]
  | cons c cs ih =>
    simp only [indexOfAux]
    rw [List.infix_cons_iff]
    by_cases hpre : p.isPrefixOf (c :: cs) = true
    · simp only [hpre, if_true, Option.isSome_some, true_iff]
      exact Or.inl (List.isPrefixOf_iff_prefix.mp hpre)
    · simp only [hpre, if_false, Bool.false_eq_true, ih]
      constructor
      · exact Or.inr
      · rintro (h | h)
        · exact absurd (List.isPrefixOf_iff_prefix.mpr h) hpre
        · exact h

theorem includes_iff (t p : Str) : includes t p = true ↔ p <:+: t := by
  simp only [includes, indexOf, List.drop_zero]
  exact indexOfAux_isSome_iff p t _

theorem score_pos_of_infix (H : Host) (hidem : NormalizeIdempotent H) (query hay : Str)
    (hq : normalize H (some query) ≠ [])
    (hin : normalize H (some query) <:+: normalize H (some hay)) :
    ∃ s, scoreMatch H (normalize H (some query)) (some hay) = some s ∧ 0 < s := by
  refine ⟨_, scoreMatch_of_ne H _ (some hay) hq, ?_⟩
  unfold queryTerms
  rw [hidem query]
  cases hqs : normalize H (some query) with
  | nil => exact absurd hqs hq
  | cons c cs =>
    have hc : isWhite c = false := trim_head_not_white _ c cs hqs
    obtain ⟨h, tl, heq, hpre⟩ := splitOnP_head_prefix isWhite cs
    have hsplit : (c :: cs).splitOnP isWhite = (c :: h) :: tl := by
      rw [List.splitOnP_cons]
      simp [hc, heq]
    rw [hsplit]
    have hterm : (c :: h) <:+: normalize H (some hay) := by
      rw [hqs] at hin
      exact ((List.prefix_cons_inj c).mpr hpre).isInfix.trans hin
    have hpos := scanCount_pos_of_infix (c :: h) (by simp) _ hterm
    simp only [List.filter_cons, truthy, if_true, List.map_cons, List.sum_cons, occurrences]
    omega

/-- C10: when normalization is idempotent, for every query and haystack, if
`q = normalize(query)` is not empty and `normalize(haystack)` contains `q`, then
`scoreMatch(q, haystack)` is positive; hence the flag `_ok` of every row equals
`!q || s > 0`: the clause `normalize(hay).includes(q)` never changes it. -/
theorem safety_net_redundant (H : Host) (hidem : NormalizeIdempotent H) (query : Str) :
    (∀ hay : Str, normalize H (some query) ≠ [] →
      normalize H (some query) <:+: normalize H (some hay) →
      ∃ s, scoreMatch H (normalize H (some query)) (some hay) = some s ∧ 0 < s) ∧
    (∀ x : Item, ∃ r, rowOf H (normalize H (some query)) x = Outcome.ok r ∧
      r.ok = (!truthy (normalize H (some query)) || decide (r.score > 0))) := by
  constructor
  · intro hay hq hin
    exact score_pos_of_infix H hidem query hay hq hin
  · intro x
    refine ⟨_, rowOf_eq H _ x, ?_⟩
    simp only [pureRow, okFlag]
    by_cases hq : normalize H (some query) = []
    · simp [hq, truthy]
    · cases hinc : includes (normalize H (some (hayOf x))) (normalize H (some query)) with
      | false => simp
      | true =>
        obtain ⟨s, hs, hpos⟩ := score_pos_of_infix H hidem query (hayOf x) hq
          ((includes_iff _ _).mp hinc)
        have hval : scoreVal H (normalize H (some query)) (some (hayOf x)) = s := by
          simp [scoreVal, hs]
        have hdec : decide (scoreVal H (normalize H (some query)) (some (hayOf x)) > 0) = true := by
          rw [hval]
          exact decide_eq_true hpos
        simp only [hdec, Bool.or_true]

theorem trim_idem (s : Str) : trim (trim s) = trim s := by
  have hdrop : (trim s).dropWhile isWhite = trim s := by
    cases h : trim s with
    | nil => rfl
    | cons c cs =>
      have hc := trim_head_not_white s c cs h
      simp [List.dropWhile_cons, hc]
  have hr : List.rdropWhile isWhite (trim s) = trim s :=
    List.rdropWhile_idempotent isWhite (s.dropWhile isWhite)
  show List.rdropWhile isWhite ((trim s).dropWhile isWhite) = trim s
  rw [hdrop, hr]

theorem mem_of_mem_trim (s : Str) (c : Nat) (h : c ∈ trim s) : c ∈ s := by
  have hpre : trim s <+: s.dropWhile isWhite := List.rdropWhile_prefix isWhite _
  exact (List.dropWhile_suffix isWhite).subset (hpre.subset h)

theorem asciiHost_idempotent : NormalizeIdempotent asciiHost := by
  intro s
  show trim ((trim (s.map lowerUnit)).map lowerUnit) = trim (s.map lowerUnit)
  have hmap : (trim (s.map lowerUnit)).map lowerUnit = trim (s.map lowerUnit) := by
    conv_rhs => rw [← List.map_id (trim (s.map lowerUnit))]
    apply List.map_congr_left
    intro c hc
    obtain ⟨d, _, hd⟩ := List.mem_map.mp (mem_of_mem_trim _ c hc)
    rw [← hd, lowerUnit_idem]
    rfl
  rw [hmap, trim_idem]

theorem safety_net_redundant_witness :
    NormalizeIdempotent asciiHost ∧
    (normalize asciiHost (some (str " Annual AUDIT ")) ≠ [] →
      normalize asciiHost (some (str " Annual AUDIT "))
        <:+: normalize asciiHost (some (str "The annual audit process")) →
      ∃ s, scoreMatch asciiHost (normalize asciiHost (some (str " Annual AUDIT ")))
          (some (str "The annual audit process")) = some s ∧ 0 < s) :=
  ⟨asciiHost_idempotent,
    (safety_net_redundant asciiHost asciiHost_idempotent (str " Annual AUDIT ")).1
      (str "The annual audit process")⟩

/-! ## C9: the recent-queries list -/

theorem recentInv_nil : RecentInv [] := by
  refine ⟨by simp, List.nodup_nil, ?_⟩
  intro v hv
  exact absurd hv (List.not_mem_nil v)

theorem entriesGood_take (l : List Entry) (h : EntriesGood l) : RecentInv (l.take 8) := by
  refine ⟨by simp [List.length_take], h.1.sublist (List.take_sublist 8 l), ?_⟩
  intro v hv
  exact h.2 v (List.mem_of_mem_take hv)

theorem entriesGood_save (l : List Entry) (v : Str) (h : EntriesGood l) (hv : trim v ≠ []) :
    RecentInv ((Entry.text (trim v)
      :: l.filter (fun x => decide (x ≠ Entry.text (trim v)))).take 8) := by
  have hnd : (Entry.text (trim v)
      :: l.filter (fun x => decide (x ≠ Entry.text (trim v)))).Nodup := by
    rw [List.nodup_cons]
    refine ⟨?_, h.1.filter _⟩
    intro hmem
    have := (List.mem_filter.mp hmem).2
    simp at this
  refine ⟨by simp [List.length_take], hnd.sublist (List.take_sublist 8 _), ?_⟩
  intro w hw
  rcases List.mem_cons.mp (List.mem_of_mem_take hw) with h1 | h1
  · rw [h1]
    exact ⟨trim v, rfl, hv, trim_idem v⟩
  · exact h.2 w (List.mem_filter.mp h1).1

theorem loadRecent_inv (st : Stored) (h : StoredInv st) : RecentInv (loadRecent st) := by
  cases st with
  | absent => exact recentInv_nil
  | other => exact recentInv_nil
  | array l => exact entriesGood_take l h

theorem loadRecent_length (st : Stored) : (loadRecent st).length ≤ 8 := by
  cases st <;> simp [loadRecent, List.length_take]

theorem stepRecent_length (s : RecentState) (e : Event) (h : s.recent.length ≤ 8) :
    (stepRecent s e).recent.length ≤ 8 := by
  cases e with
  | mount => exact loadRecent_length s.storage
  | save value writeOk =>
    simp only [stepRecent, saveRecent]
    by_cases hv : trim value = []
    · simp only [hv, if_true]
      exact h
    · simp only [hv, if_false, List.length_take]
      exact Nat.min_le_left _ _
  | clear removeOk => simp [stepRecent, onClearRecent]

theorem foldl_stepRecent_length (evs : List Event) (s : RecentState)
    (h : s.recent.length ≤ 8) : (evs.foldl stepRecent s).recent.length ≤ 8 := by
  induction evs generalizing s with
  | nil => exact h
  | cons e evs ih => exact ih (stepRecent s e) (stepRecent_length s e h)

theorem stepRecent_inv (s : RecentState) (e : Event)
    (h : RecentInv s.recent ∧ StoredInv s.storage) :
    RecentInv (stepRecent s e).recent ∧ StoredInv (stepRecent s e).storage := by
  cases e with
  | mount => exact ⟨loadRecent_inv s.storage h.2, h.2⟩
  | save value writeOk =>
    simp only [stepRecent, saveRecent]
    by_cases hv : trim value = []
    · simp only [hv, if_true]
      exact h
    · simp only [hv, if_false]
      have hinv := entriesGood_save s.recent value h.1.2 hv
      refine ⟨hinv, ?_⟩
      cases writeOk with
      | true => exact hinv.2
      | false => exact h.2
  | clear removeOk =>
    refine ⟨recentInv_nil, ?_⟩
    cases removeOk with
    | true => trivial
    | false => exact h.2

theorem foldl_stepRecent_inv (evs : List Event) (s : RecentState)
    (h : RecentInv s.recent ∧ StoredInv s.storage) :
    RecentInv (evs.foldl stepRecent s).recent ∧ StoredInv (evs.foldl stepRecent s).storage := by
  induction evs generalizing s with
  | nil => exact h
  | cons e evs ih => exact ih (stepRecent s e) (stepRecent_inv s e h)

/-- C9 (as stated, refuted): the list read at start-up is the stored array as it
is: a stored `[" c "]` gives a list whose entry is not trimmed, and with a
stored `["a", "a"]` the duplicate is still there after `saveRecent("b")`; in
both states the invariant fails. -/
theorem recent_loaded_unvalidated :
    (runRecent (Stored.array [Entry.text (str " c ")]) []).recent = [Entry.text (str " c ")] ∧
    ¬ RecentInv (runRecent (Stored.array [Entry.text (str " c ")]) []).recent ∧
    (runRecent (Stored.array [Entry.text (str "a"), Entry.text (str "a")])
        [Event.save (str "b") true]).recent
      = [Entry.text (str "b"), Entry.text (str "a"), Entry.text (str "a")] ∧
    ¬ RecentInv (runRecent (Stored.array [Entry.text (str "a"), Entry.text (str "a")])
        [Event.save (str "b") true]).recent := by
  refine ⟨by decide, ?_, by decide, ?_⟩
  · intro h
    have hrec : (runRecent (Stored.array [Entry.text (str " c ")]) []).recent
        = [Entry.text (str " c ")] := by decide
    rw [hrec] at h
    obtain ⟨s, hs, _, htrim⟩ := h.2.2 (Entry.text (str " c ")) (List.mem_singleton.mpr rfl)
    have hs' : s = str " c " := (Entry.text.inj hs).symm
    subst hs'
    exact absurd htrim (by decide)
  · intro h
    have hrec : (runRecent (Stored.array [Entry.text (str "a"), Entry.text (str "a")])
        [Event.save (str "b") true]).recent
        = [Entry.text (str "b"), Entry.text (str "a"), Entry.text (str "a")] := by decide
    rw [hrec] at h
    exact absurd h.2.1 (by decide)

/-- C9 (amended): in every state the component reaches from any stored entry -
through any sequence of saves, clearings and new starts, whether the writes to
the storage succeed or not - the recent-queries list has at most 8 entries; its
entries are pairwise distinct non-empty trimmed strings whenever the array
stored at the first start is so or no array is stored. `saveRecent` and
`onClearRecent` preserve the invariant; after `saveRecent(v)` with `v` not
blank the head of the list is `trim(v)` and the other entries are the previous
ones other than `trim(v)`, in their previous order, cut to seven. -/
theorem recent_invariant :
    (∀ (st : Stored) (evs : List Event), (runRecent st evs).recent.length ≤ 8) ∧
    (∀ (st : Stored) (evs : List Event), StoredInv st → RecentInv (runRecent st evs).recent) ∧
    (∀ (s : RecentState) (v : Str) (writeOk : Bool), RecentInv s.recent →
      RecentInv (saveRecent s v writeOk).recent) ∧
    (∀ (s : RecentState) (removeOk : Bool), RecentInv (onClearRecent s removeOk).recent) ∧
    (∀ (s : RecentState) (v : Str) (writeOk : Bool), trim v ≠ [] →
      ∃ rest, (saveRecent s v writeOk).recent = Entry.text (trim v) :: rest ∧
        rest = (s.recent.filter (fun x => decide (x ≠ Entry.text (trim v)))).take 7 ∧
        rest.Sublist s.recent) := by
  refine ⟨?_, ?_, ?_, ?_, ?_⟩
  · intro st evs
    exact foldl_stepRecent_length evs (initRecent st) (loadRecent_length st)
  · intro st evs hst
    exact (foldl_stepRecent_inv evs (initRecent st) ⟨loadRecent_inv st hst, hst⟩).1
  · intro s v writeOk h
    simp only [saveRecent]
    by_cases hv : trim v = []
    · simp only [hv, if_true]
      exact h
    · simp only [hv, if_false]
      exact entriesGood_save s.recent v h.2 hv
  · intro s removeOk
    exact recentInv_nil
  · intro s v writeOk hv
    refine ⟨(s.recent.filter (fun x => decide (x ≠ Entry.text (trim v)))).take 7, ?_, rfl, ?_⟩
    · simp only [saveRecent, hv, if_false]
      rfl
    · exact (List.take_sublist _ _).trans (List.filter_sublist _)

theorem recent_invariant_witness :
    StoredInv (Stored.array [Entry.text (str "tender")]) ∧
    RecentInv (runRecent (Stored.array [Entry.text (str "tender")])
      [Event.save (str " audit ") true, Event.save (str "tender") false,
        Event.mount, Event.save (str "audit") true]).recent ∧
    (trim (str " audit ") ≠ [] →
      ∃ rest, (saveRecent
          { storage := Stored.absent, recent := [Entry.text (str "tender"), Entry.text (str "audit")] }
          (str " audit ") true).recent = Entry.text (trim (str " audit ")) :: rest ∧
        rest = ([Entry.text (str "tender"), Entry.text (str "audit")].filter
          (fun x => decide (x ≠ Entry.text (trim (str " audit "))))).take 7 ∧
        rest.Sublist [Entry.text (str "tender"), Entry.text (str "audit")]) :=
  ⟨⟨by decide, fun e he => by
      rw [List.mem_singleton.mp he]
      exact ⟨str "tender", rfl, by decide, by decide⟩⟩,
    recent_invariant.2.1 _ _
      ⟨by decide, fun e he => by
        rw [List.mem_singleton.mp he]
        exact ⟨str "tender", rfl, by decide, by decide⟩⟩,
    recent_invariant.2.2.2.2 _ _ _⟩

end TenderSearch
